import Mathlib

/-!
Verification of the vibecraft session telemetry and hierarchy core.

This file gives a shallow embedding of the three source modules
`src/server/MetricsCollector.ts`, `src/server/AgentHierarchy.ts` and
`src/server/TmuxDiscovery.ts` and proves the stated properties about them.

JavaScript `Map<string, V>` objects are modelled as association lists with
JS `Map` semantics: `set` replaces the value in place when the key exists
and appends otherwise, `get` returns the first binding, `delete` removes
the binding.  JS numbers are modelled as exact rationals `ℚ`; counters are
`ℕ`.  Possibly diverging loops (`getAncestors`, the BFS in
`getDescendants`) are modelled with explicit fuel, where a `none` result
at every fuel models divergence of the source loop.
-/

/-! ## Association-list model of JS Map and Set -/

def mapGet {α : Type} (m : List (String × α)) (k : String) : Option α :=
  match m with
  | [] => none
  | (k', v) :: rest => if k' = k then some v else mapGet rest k

def mapSet {α : Type} (m : List (String × α)) (k : String) (v : α) :
    List (String × α) :=
  match m with
  | [] => [(k, v)]
  | (k', v') :: rest =>
    if k' = k then (k, v) :: rest else (k', v') :: mapSet rest k v

def mapDel {α : Type} (m : List (String × α)) (k : String) :
    List (String × α) :=
  m.filter (fun e => e.1 ≠ k)

def mapUpdate {α : Type} (m : List (String × α)) (k : String) (f : α → α) :
    List (String × α) :=
  match m with
  | [] => []
  | (k', v) :: rest =>
    if k' = k then (k', f v) :: mapUpdate rest k f
    else (k', v) :: mapUpdate rest k f

def mapGetD {α : Type} (m : List (String × α)) (k : String) (d : α) : α :=
  (mapGet m k).getD d

def mapKeys {α : Type} (m : List (String × α)) : List String :=
  m.map (fun e => e.1)

theorem mapGet_mapSet_self {α : Type} (m : List (String × α)) (k : String)
    (v : α) : mapGet (mapSet m k v) k = some v := by
  induction m with
  | nil => simp [mapSet, mapGet]
  | cons e rest ih =>
    by_cases h : e.1 = k
    · simp [mapSet, mapGet, h]
    · simp only [mapSet, mapGet]
      rw [if_neg h]
      simp [mapGet, h, ih]

theorem mapGet_mapSet_ne {α : Type} (m : List (String × α)) (k k' : String)
    (v : α) (hne : k ≠ k') : mapGet (mapSet m k v) k' = mapGet m k' := by
  induction m with
  | nil => simp [mapSet, mapGet, hne]
  | cons e rest ih =>
    by_cases h : e.1 = k
    · simp only [mapSet, if_pos h, mapGet]
      rw [if_neg hne, if_neg (h ▸ hne)]
    · simp only [mapSet, if_neg h, mapGet]
      by_cases h2 : e.1 = k'
      · rw [if_pos h2, if_pos h2]
      · rw [if_neg h2, if_neg h2, ih]

theorem mapGet_mapDel_self {α : Type} (m : List (String × α)) (k : String) :
    mapGet (mapDel m k) k = none := by
  induction m with
  | nil => simp [mapDel, mapGet]
  | cons e rest ih =>
    by_cases h : e.1 = k
    · simpa [mapDel, h] using ih
    · simpa [mapDel, mapGet, h] using ih

theorem mapGet_mapDel_ne {α : Type} (m : List (String × α)) (k k' : String)
    (hne : k ≠ k') : mapGet (mapDel m k) k' = mapGet m k' := by
  induction m with
  | nil => simp [mapDel, mapGet]
  | cons e rest ih =>
    obtain ⟨a, b⟩ := e
    simp only [mapDel, List.filter_cons, ne_eq, decide_not] at ih ⊢
    by_cases h : a = k
    · simp [h, mapGet, hne, ih]
    · by_cases h2 : a = k'
      · simp [h, mapGet, h2, Ne.symm hne]
      · simp [h, mapGet, h2, ih]

theorem mapGet_eq_none_of_not_mem_keys {α : Type} (m : List (String × α))
    (k : String) (h : k ∉ mapKeys m) : mapGet m k = none := by
  induction m with
  | nil => rfl
  | cons e rest ih =>
    obtain ⟨a, b⟩ := e
    have h1 : a ≠ k := fun he => h (by simp [mapKeys, he])
    have h2 : k ∉ mapKeys rest := fun hm => h (by
      simp only [mapKeys, List.map_cons, List.mem_cons]
      exact Or.inr (by simpa [mapKeys] using hm))
    simp [mapGet, h1, ih h2]

theorem mem_keys_of_mapGet_eq_some {α : Type} (m : List (String × α))
    (k : String) (v : α) (h : mapGet m k = some v) : k ∈ mapKeys m := by
  induction m with
  | nil => simp [mapGet] at h
  | cons e rest ih =>
    obtain ⟨a, b⟩ := e
    simp only [mapGet] at h
    by_cases he : a = k
    · simp [mapKeys, he]
    · rw [if_neg he] at h
      simp only [mapKeys, List.map_cons, List.mem_cons]
      exact Or.inr (by simpa [mapKeys] using ih h)

theorem mem_of_mapGet_eq_some {α : Type} (m : List (String × α))
    (k : String) (v : α) (h : mapGet m k = some v) : (k, v) ∈ m := by
  induction m with
  | nil => simp [mapGet] at h
  | cons e rest ih =>
    obtain ⟨a, b⟩ := e
    simp only [mapGet] at h
    by_cases he : a = k
    · rw [if_pos he] at h
      injection h with h
      subst he h
      exact List.mem_cons_self _ _
    · rw [if_neg he] at h
      exact List.mem_cons_of_mem _ (ih h)

theorem mapDel_eq_self_of_not_mem {α : Type} (m : List (String × α))
    (k : String) (h : k ∉ mapKeys m) : mapDel m k = m := by
  induction m with
  | nil => rfl
  | cons e rest ih =>
    obtain ⟨a, b⟩ := e
    have h1 : a ≠ k := fun he => h (by simp [mapKeys, he])
    have h2 : k ∉ mapKeys rest := fun hm => h (by
      simp only [mapKeys, List.map_cons, List.mem_cons]
      exact Or.inr (by simpa [mapKeys] using hm))
    have ih2 := ih h2
    simp only [mapDel, List.filter_cons, ne_eq, decide_not] at ih2 ⊢
    have hcond : (!decide (a = k)) = true := by simp [h1]
    rw [if_pos hcond, ih2]

theorem mapKeys_mapSet_of_mem {α : Type} (m : List (String × α)) (k : String)
    (v : α) : mapKeys (mapSet m k v) = mapKeys m ∨
      mapKeys (mapSet m k v) = mapKeys m ++ [k] := by
  induction m with
  | nil => right; rfl
  | cons e rest ih =>
    by_cases h : e.1 = k
    · left; simp [mapSet, h, mapKeys]
    · rcases ih with ih | ih
      · left; simp [mapSet, h, mapKeys] at ih ⊢; exact ih
      · right; simp [mapSet, h, mapKeys] at ih ⊢; exact ih

/-! ## MetricsCollector (src/server/MetricsCollector.ts) -/

/-- Data recorded for each tool use.  Optional token fields model the
optional TS fields; JS numbers are modelled as `ℚ`. -/
structure ToolUseData where
  tool : String
  duration : ℚ
  success : Bool
  inputTokens : Option ℚ
  outputTokens : Option ℚ
deriving DecidableEq

/-- Per-session aggregate state, as in the `SessionMetrics` interface. -/
structure SessionMetrics where
  inputTokens : ℚ
  outputTokens : ℚ
  durations : List ℚ
  errorCount : ℕ
  totalCount : ℕ
  toolCounts : List (String × ℕ)
  startTime : ℚ
deriving DecidableEq

def INPUT_TOKEN_PRICE : ℚ := 3 / 1000000

def OUTPUT_TOKEN_PRICE : ℚ := 15 / 1000000

/-- `percentile` from MetricsCollector.ts: nearest-rank percentile of an
unsorted list (sorts ascending internally). -/
def percentile (values : List ℚ) (p : ℚ) : ℚ :=
  if values.length = 0 then 0
  else
    let sorted := values.insertionSort (· ≤ ·)
    let rank : ℤ := Int.ceil (p / 100 * sorted.length)
    let index : ℤ := min (max (rank - 1) 0) ((sorted.length : ℤ) - 1)
    sorted.getD index.toNat 0

structure TokenStats where
  input : ℚ
  output : ℚ
  total : ℚ
  cost : ℚ
deriving DecidableEq

structure LatencyStats where
  avg : ℚ
  p95 : ℚ
  p99 : ℚ
deriving DecidableEq

structure MetricsData where
  tokens : TokenStats
  latency : LatencyStats
  errorRate : ℚ
  toolCounts : List (String × ℕ)
  duration : ℚ
deriving DecidableEq

/-- The all-zero snapshot returned for an unknown session. -/
def zeroMetrics : MetricsData :=
  { tokens := { input := 0, output := 0, total := 0, cost := 0 }
  , latency := { avg := 0, p95 := 0, p99 := 0 }
  , errorRate := 0
  , toolCounts := []
  , duration := 0 }

/-- The collector state: a JS Map from session id to aggregate state. -/
structure MetricsCollector where
  sessions : List (String × SessionMetrics)
deriving DecidableEq

def MetricsCollector.empty : MetricsCollector := ⟨[]⟩

/-- The fresh aggregate entry created on first `recordToolUse`. -/
def blankSession (now : ℚ) : SessionMetrics :=
  { inputTokens := 0, outputTokens := 0, durations := []
  , errorCount := 0, totalCount := 0, toolCounts := [], startTime := now }

/-- One step of `recordToolUse` on the (possibly absent) session entry.
The token guards model JS truthiness of `if (data.inputTokens)`:
a present value of `0` is skipped (adding `0` would be a no-op anyway). -/
def recordStep (cur : Option SessionMetrics) (data : ToolUseData)
    (now : ℚ) : SessionMetrics :=
  let s :=
    match cur with
    | some s => s
    | none => blankSession now
  let s :=
    match data.inputTokens with
    | some v => if v ≠ 0 then { s with inputTokens := s.inputTokens + v } else s
    | none => s
  let s :=
    match data.outputTokens with
    | some v => if v ≠ 0 then { s with outputTokens := s.outputTokens + v } else s
    | none => s
  { s with
    durations := s.durations ++ [data.duration]
  , totalCount := s.totalCount + 1
  , errorCount := s.errorCount + (if data.success then 0 else 1)
  , toolCounts := mapSet s.toolCounts data.tool (mapGetD s.toolCounts data.tool 0 + 1) }

/-- `MetricsCollector.recordToolUse`. -/
def MetricsCollector.recordToolUse (c : MetricsCollector) (sessionId : String)
    (data : ToolUseData) (now : ℚ) : MetricsCollector :=
  ⟨mapSet c.sessions sessionId (recordStep (mapGet c.sessions sessionId) data now)⟩

/-- `MetricsCollector.getMetrics`. -/
def MetricsCollector.getMetrics (c : MetricsCollector) (sessionId : String)
    (now : ℚ) : MetricsData :=
  match mapGet c.sessions sessionId with
  | none => zeroMetrics
  | some session =>
    let totalTokens := session.inputTokens + session.outputTokens
    let cost := session.inputTokens * INPUT_TOKEN_PRICE +
      session.outputTokens * OUTPUT_TOKEN_PRICE
    let durations := session.durations
    let avg : ℚ :=
      if durations.length > 0 then durations.sum / durations.length else 0
    let errorRate : ℚ :=
      if session.totalCount > 0 then
        ((session.errorCount : ℚ) / (session.totalCount : ℚ)) * 100
      else 0
    { tokens :=
      { input := session.inputTokens, output := session.outputTokens
      , total := totalTokens, cost := cost }
    , latency :=
      { avg := avg, p95 := percentile durations 95, p99 := percentile durations 99 }
    , errorRate := errorRate
    , toolCounts := session.toolCounts
    , duration := now - session.startTime }

/-- `MetricsCollector.getAllMetrics`. -/
def MetricsCollector.getAllMetrics (c : MetricsCollector) (now : ℚ) :
    List (String × MetricsData) :=
  c.sessions.map (fun e => (e.1, c.getMetrics e.1 now))

/-- `MetricsCollector.clearSession`. -/
def MetricsCollector.clearSession (c : MetricsCollector) (sessionId : String) :
    MetricsCollector :=
  ⟨mapDel c.sessions sessionId⟩

/-- `MetricsCollector.clearAll`. -/
def MetricsCollector.clearAll (_c : MetricsCollector) : MetricsCollector := ⟨[]⟩

/-- Fold a timed sequence of tool-use events into the collector, all on one
session. -/
def runRecords (c : MetricsCollector) (sessionId : String)
    (evs : List (ToolUseData × ℚ)) : MetricsCollector :=
  evs.foldl (fun c e => c.recordToolUse sessionId e.1 e.2) c

/-! ## MetricsCollector lemmas -/

/-- JS-truthy contribution of an optional token count. -/
def tokContrib : Option ℚ → ℚ
  | some v => if v ≠ 0 then v else 0
  | none => 0

/-- Truthiness-guarded token sum, as the code accumulates it. -/
def truthySum : List (Option ℚ) → ℚ
  | [] => 0
  | o :: rest => tokContrib o + truthySum rest

/-- Sum of the present values (a present `0` contributes `0`, absent
contributes `0`), as the specification describes the token sums. -/
def optSum (l : List (Option ℚ)) : ℚ := (l.filterMap id).sum

theorem truthySum_eq_optSum (l : List (Option ℚ)) : truthySum l = optSum l := by
  induction l with
  | nil => rfl
  | cons o rest ih =>
    cases o with
    | none => simpa [truthySum, tokContrib, optSum] using ih
    | some v =>
      by_cases h : v = 0
      · subst h
        simpa [truthySum, tokContrib, optSum] using ih
      · simp [truthySum, tokContrib, optSum, h, ih]

theorem recordStep_some (s : SessionMetrics) (d : ToolUseData) (t : ℚ) :
    recordStep (some s) d t =
      { inputTokens := s.inputTokens + tokContrib d.inputTokens
      , outputTokens := s.outputTokens + tokContrib d.outputTokens
      , durations := s.durations ++ [d.duration]
      , errorCount := s.errorCount + (if d.success then 0 else 1)
      , totalCount := s.totalCount + 1
      , toolCounts := mapSet s.toolCounts d.tool (mapGetD s.toolCounts d.tool 0 + 1)
      , startTime := s.startTime } := by
  obtain ⟨tool, dur, succ, itok, otok⟩ := d
  cases itok <;> cases otok <;>
    simp only [recordStep, tokContrib] <;>
    split_ifs <;>
    simp_all

theorem recordStep_none (d : ToolUseData) (t : ℚ) :
    recordStep none d t = recordStep (some (blankSession t)) d t := rfl

theorem recordToolUse_get_self (c : MetricsCollector) (sid : String)
    (d : ToolUseData) (t : ℚ) :
    mapGet (c.recordToolUse sid d t).sessions sid
      = some (recordStep (mapGet c.sessions sid) d t) :=
  mapGet_mapSet_self _ _ _

theorem runRecords_get_some (evs : List (ToolUseData × ℚ)) :
    ∀ (c : MetricsCollector) (sid : String) (s : SessionMetrics),
      mapGet c.sessions sid = some s →
      ∃ s', mapGet (runRecords c sid evs).sessions sid = some s' ∧
        s'.inputTokens
          = s.inputTokens + truthySum (evs.map (fun e => e.1.inputTokens)) ∧
        s'.outputTokens
          = s.outputTokens + truthySum (evs.map (fun e => e.1.outputTokens)) ∧
        s'.durations = s.durations ++ evs.map (fun e => e.1.duration) ∧
        s'.errorCount = s.errorCount + evs.countP (fun e => !e.1.success) ∧
        s'.totalCount = s.totalCount + evs.length ∧
        s'.startTime = s.startTime := by
  induction evs with
  | nil =>
    intro c sid s h
    exact ⟨s, h, by simp [truthySum], by simp [truthySum], by simp, by simp,
      by simp, rfl⟩
  | cons e rest ih =>
    intro c sid s h
    have hstep : mapGet (c.recordToolUse sid e.1 e.2).sessions sid
        = some (recordStep (some s) e.1 e.2) := by
      rw [recordToolUse_get_self, h]
    obtain ⟨s', hs', h1, h2, h3, h4, h5, h6⟩ := ih _ sid _ hstep
    rw [recordStep_some] at h1 h2 h3 h4 h5 h6
    refine ⟨s', hs', ?_, ?_, ?_, ?_, ?_, ?_⟩
    · rw [h1]; simp [truthySum]; ring
    · rw [h2]; simp [truthySum]; ring
    · rw [h3]; simp
    · rw [h4]; simp only [List.countP_cons, List.map_cons]
      cases hsucc : e.1.success <;> simp [hsucc] <;> omega
    · rw [h5]; simp [List.length_cons]; omega
    · rw [h6]

theorem runRecords_get_fresh (c : MetricsCollector) (sid : String)
    (h : mapGet c.sessions sid = none) (e : ToolUseData × ℚ)
    (rest : List (ToolUseData × ℚ)) :
    ∃ s', mapGet (runRecords c sid (e :: rest)).sessions sid = some s' ∧
      s'.inputTokens = truthySum ((e :: rest).map (fun x => x.1.inputTokens)) ∧
      s'.outputTokens = truthySum ((e :: rest).map (fun x => x.1.outputTokens)) ∧
      s'.durations = (e :: rest).map (fun x => x.1.duration) ∧
      s'.errorCount = (e :: rest).countP (fun x => !x.1.success) ∧
      s'.totalCount = (e :: rest).length ∧
      s'.startTime = e.2 := by
  have hstep : mapGet (c.recordToolUse sid e.1 e.2).sessions sid
      = some (recordStep (some (blankSession e.2)) e.1 e.2) := by
    rw [recordToolUse_get_self, h, recordStep_none]
  obtain ⟨s', hs', h1, h2, h3, h4, h5, h6⟩ :=
    runRecords_get_some rest _ sid _ hstep
  rw [recordStep_some] at h1 h2 h3 h4 h5 h6
  refine ⟨s', hs', ?_, ?_, ?_, ?_, ?_, ?_⟩
  · rw [h1]; simp [truthySum, blankSession]
  · rw [h2]; simp [truthySum, blankSession]
  · rw [h3]; simp [blankSession]
  · rw [h4]; simp only [List.countP_cons, List.map_cons, blankSession]
    cases hsucc : e.1.success <;> simp [hsucc] <;> omega
  · rw [h5]; simp [blankSession]; omega
  · rw [h6]; simp [blankSession]

/-! ## Percentile lemmas -/

/-- Nearest-rank index from the specification: rank = ceil(p/100*n),
index = clamp(rank-1, 0, n-1). -/
def specIdx (p : ℚ) (n : ℕ) : ℕ :=
  (min (max (Int.ceil (p / 100 * n) - 1) 0) ((n : ℤ) - 1)).toNat

theorem percentile_eq_getD (l : List ℚ) (p : ℚ) (h : l ≠ []) :
    percentile l p = (l.insertionSort (· ≤ ·)).getD (specIdx p l.length) 0 := by
  have hlen : ¬ l.length = 0 := by simpa [List.length_eq_zero] using h
  rw [percentile, if_neg hlen]
  simp only [specIdx, (List.perm_insertionSort (· ≤ ·) l).length_eq]

theorem specIdx_lt (p : ℚ) (n : ℕ) (hn : 0 < n) : specIdx p n < n := by
  have h1 : (min (max (Int.ceil (p / 100 * n) - 1) 0) ((n : ℤ) - 1))
      ≤ (n : ℤ) - 1 := min_le_right _ _
  have h2 := Int.toNat_le_toNat h1
  calc specIdx p n ≤ ((n : ℤ) - 1).toNat := h2
    _ < n := by omega

theorem specIdx_mono {p q : ℚ} (hpq : p ≤ q) (n : ℕ) :
    specIdx p n ≤ specIdx q n := by
  have hn : (0 : ℚ) ≤ (n : ℚ) := Nat.cast_nonneg n
  have hm : (p / 100 * n : ℚ) ≤ q / 100 * n := by
    apply mul_le_mul_of_nonneg_right _ hn
    linarith
  have hc : Int.ceil (p / 100 * (n : ℚ)) ≤ Int.ceil (q / 100 * (n : ℚ)) :=
    Int.ceil_mono hm
  unfold specIdx
  apply Int.toNat_le_toNat
  apply min_le_min _ le_rfl
  apply max_le_max _ le_rfl
  omega

/-- The nearest-rank percentile is monotone in `p` on nonempty lists. -/
theorem percentile_le_percentile (l : List ℚ) {p q : ℚ} (hpq : p ≤ q)
    (h : l ≠ []) : percentile l p ≤ percentile l q := by
  have hlpos : 0 < l.length := List.length_pos.mpr h
  have hslen : (l.insertionSort (· ≤ ·)).length = l.length :=
    (List.perm_insertionSort (· ≤ ·) l).length_eq
  have hq : specIdx q l.length < (l.insertionSort (· ≤ ·)).length := by
    rw [hslen]; exact specIdx_lt q l.length hlpos
  have hp : specIdx p l.length < (l.insertionSort (· ≤ ·)).length := by
    rw [hslen]
    exact lt_of_le_of_lt (specIdx_mono hpq l.length) (specIdx_lt q l.length hlpos)
  rw [percentile_eq_getD l p h, percentile_eq_getD l q h,
    List.getD_eq_get _ _ hp, List.getD_eq_get _ _ hq]
  exact (List.sorted_insertionSort (· ≤ ·) l).rel_get_of_le
    (by simpa using specIdx_mono hpq l.length)

/-- On a one-element list, the clamped nearest-rank index is 0, so every
percentile is that element. -/
theorem percentile_singleton (x p : ℚ) : percentile [x] p = x := by
  rw [percentile_eq_getD [x] p (by simp)]
  have h0 : specIdx p 1 = 0 := by
    unfold specIdx
    have : min (max (Int.ceil (p / 100 * (1 : ℕ))) 0 - 1 + 1 - 1) 0 ≤ 0 :=
      min_le_right _ _
    have hmin : min (max (Int.ceil (p / 100 * ((1 : ℕ) : ℚ)) - 1) 0)
        (((1 : ℕ) : ℤ) - 1) = 0 := by
      have hge : (0 : ℤ) ≤ max (Int.ceil (p / 100 * ((1 : ℕ) : ℚ)) - 1) 0 :=
        le_max_right _ _
      omega
    rw [hmin]
    rfl
  simp only [List.length_singleton]
  rw [h0]
  rfl

/-! ## getMetrics helper lemmas -/

theorem getMetrics_latency (c : MetricsCollector) (sid : String) (now : ℚ)
    (s : SessionMetrics) (h : mapGet c.sessions sid = some s) :
    (c.getMetrics sid now).latency =
      { avg := if s.durations.length > 0 then s.durations.sum / s.durations.length else 0
      , p95 := percentile s.durations 95
      , p99 := percentile s.durations 99 } := by
  simp [MetricsCollector.getMetrics, h]

theorem getMetrics_singleton (c : MetricsCollector) (sid : String) (now : ℚ)
    (s : SessionMetrics) (x : ℚ) (h : mapGet c.sessions sid = some s)
    (hx : s.durations = [x]) :
    (c.getMetrics sid now).latency.avg = x ∧
    (c.getMetrics sid now).latency.p95 = x ∧
    (c.getMetrics sid now).latency.p99 = x := by
  rw [getMetrics_latency c sid now s h]
  refine ⟨?_, ?_, ?_⟩
  · simp [hx]
  · simp only [hx]; exact percentile_singleton x 95
  · simp only [hx]; exact percentile_singleton x 99

/-- The collector state after the three-tool-use example run of the spec. -/
def metricsExample : MetricsCollector :=
  runRecords MetricsCollector.empty "s"
    [({ tool := "Read", duration := 100, success := true
      , inputTokens := none, outputTokens := none }, 0),
     ({ tool := "Grep", duration := 200, success := true
      , inputTokens := none, outputTokens := none }, 0),
     ({ tool := "Edit", duration := 300, success := true
      , inputTokens := none, outputTokens := none }, 0)]

theorem metricsExample_state :
    mapGet metricsExample.sessions "s" = some
      { inputTokens := 0, outputTokens := 0, durations := [100, 200, 300]
      , errorCount := 0, totalCount := 3
      , toolCounts := [("Read", 1), ("Grep", 1), ("Edit", 1)]
      , startTime := 0 } := rfl

/-- Claim C2: for every session with a non-empty duration sequence,
`getMetrics` computes p95/p99 by the nearest-rank method (sort ascending,
rank = ceil(p/100*count), index = clamp(rank-1, 0, count-1)); for durations
[100, 200, 300] all successful the snapshot has avg=200, p95=300, p99=300,
errorRate=0; for a one-element sequence avg = p95 = p99 = that element. -/
theorem getMetrics_percentiles_nearest_rank :
    (∀ (c : MetricsCollector) (sid : String) (now : ℚ) (s : SessionMetrics),
        mapGet c.sessions sid = some s → s.durations ≠ [] →
        ∃ sorted : List ℚ, List.Perm sorted s.durations ∧
          List.Sorted (· ≤ ·) sorted ∧
          (c.getMetrics sid now).latency.p95
            = sorted.getD (specIdx 95 s.durations.length) 0 ∧
          (c.getMetrics sid now).latency.p99
            = sorted.getD (specIdx 99 s.durations.length) 0) ∧
    ((metricsExample.getMetrics "s" 0).latency.avg = 200 ∧
      (metricsExample.getMetrics "s" 0).latency.p95 = 300 ∧
      (metricsExample.getMetrics "s" 0).latency.p99 = 300 ∧
      (metricsExample.getMetrics "s" 0).errorRate = 0) ∧
    (∀ (c : MetricsCollector) (sid : String) (now : ℚ) (s : SessionMetrics)
        (x : ℚ), mapGet c.sessions sid = some s → s.durations = [x] →
        (c.getMetrics sid now).latency.avg = x ∧
        (c.getMetrics sid now).latency.p95 = x ∧
        (c.getMetrics sid now).latency.p99 = x) := by
  refine ⟨?_, ?_, ?_⟩
  · intro c sid now s h hne
    refine ⟨s.durations.insertionSort (· ≤ ·),
      List.perm_insertionSort (· ≤ ·) s.durations,
      List.sorted_insertionSort (· ≤ ·) s.durations, ?_, ?_⟩
    · rw [getMetrics_latency c sid now s h]
      exact percentile_eq_getD s.durations 95 hne
    · rw [getMetrics_latency c sid now s h]
      exact percentile_eq_getD s.durations 99 hne
  · have hs := metricsExample_state
    have h95 : percentile [100, 200, 300] 95 = 300 := by
      have h : (⌈(57 : ℚ) / 20⌉ : ℤ) = 3 := by norm_num [Int.ceil_eq_iff]
      norm_num [percentile, List.insertionSort, List.orderedInsert, h]
      rfl
    have h99 : percentile [100, 200, 300] 99 = 300 := by
      have h : (⌈(297 : ℚ) / 100⌉ : ℤ) = 3 := by norm_num [Int.ceil_eq_iff]
      norm_num [percentile, List.insertionSort, List.orderedInsert, h]
      rfl
    refine ⟨?_, ?_, ?_, ?_⟩
    · rw [getMetrics_latency _ _ _ _ hs]; norm_num
    · rw [getMetrics_latency _ _ _ _ hs]; simpa using h95
    · rw [getMetrics_latency _ _ _ _ hs]; simpa using h99
    · simp [MetricsCollector.getMetrics, hs]
  · intro c sid now s x h hx
    exact getMetrics_singleton c sid now s x h hx

/-- A one-session collector used as concrete input for witnesses. -/
def singletonCollector : MetricsCollector :=
  ⟨[("s", { inputTokens := 0, outputTokens := 0, durations := [7]
          , errorCount := 0, totalCount := 1, toolCounts := []
          , startTime := 0 })]⟩

theorem getMetrics_percentiles_nearest_rank_wit :
    (singletonCollector.getMetrics "s" 0).latency.avg = 7 ∧
    (singletonCollector.getMetrics "s" 0).latency.p95 = 7 ∧
    (singletonCollector.getMetrics "s" 0).latency.p99 = 7 :=
  getMetrics_percentiles_nearest_rank.2.2 singletonCollector "s" 0 _ 7 rfl rfl

/-- Claim C9: for every session with a non-empty recorded duration
sequence, the snapshot satisfies p95 ≤ p99, and for a single-element
sequence avg = p95 = p99 = that element. -/
theorem getMetrics_p95_le_p99 :
    ∀ (c : MetricsCollector) (sid : String) (now : ℚ) (s : SessionMetrics),
      mapGet c.sessions sid = some s → s.durations ≠ [] →
      (c.getMetrics sid now).latency.p95 ≤ (c.getMetrics sid now).latency.p99 ∧
      (∀ x, s.durations = [x] →
        (c.getMetrics sid now).latency.avg = (c.getMetrics sid now).latency.p95 ∧
        (c.getMetrics sid now).latency.p95 = (c.getMetrics sid now).latency.p99 ∧
        (c.getMetrics sid now).latency.p99 = x) := by
  intro c sid now s h hne
  constructor
  · rw [getMetrics_latency c sid now s h]
    exact percentile_le_percentile s.durations (by norm_num) hne
  · intro x hx
    obtain ⟨ha, h95, h99⟩ := getMetrics_singleton c sid now s x h hx
    exact ⟨ha.trans h95.symm, h95.trans h99.symm, h99⟩

theorem getMetrics_p95_le_p99_wit :
    (singletonCollector.getMetrics "s" 0).latency.p95
      ≤ (singletonCollector.getMetrics "s" 0).latency.p99 :=
  (getMetrics_p95_le_p99 singletonCollector "s" 0 _ rfl (by simp)).1

/-! ## Token sums and error rate -/

/-- Claim C4: for every sequence of recordToolUse calls on one (initially
unknown) session, the snapshot's token fields are the sums of the supplied
optional values, total = input + output, errorRate lies in [0, 100], and
errorRate = 0 iff no call had success = false. -/
theorem getMetrics_tokens_errorRate (c : MetricsCollector) (sid : String)
    (evs : List (ToolUseData × ℚ)) (now : ℚ)
    (h : mapGet c.sessions sid = none) :
    ((runRecords c sid evs).getMetrics sid now).tokens.input
        = optSum (evs.map (fun e => e.1.inputTokens)) ∧
    ((runRecords c sid evs).getMetrics sid now).tokens.output
        = optSum (evs.map (fun e => e.1.outputTokens)) ∧
    ((runRecords c sid evs).getMetrics sid now).tokens.total
        = ((runRecords c sid evs).getMetrics sid now).tokens.input
          + ((runRecords c sid evs).getMetrics sid now).tokens.output ∧
    0 ≤ ((runRecords c sid evs).getMetrics sid now).errorRate ∧
    ((runRecords c sid evs).getMetrics sid now).errorRate ≤ 100 ∧
    (((runRecords c sid evs).getMetrics sid now).errorRate = 0 ↔
      ∀ e ∈ evs, e.1.success = true) := by
  cases evs with
  | nil =>
    have hrun : runRecords c sid [] = c := rfl
    rw [hrun]
    simp [MetricsCollector.getMetrics, h, optSum, zeroMetrics]
  | cons e rest =>
    obtain ⟨s', hs', h1, h2, _h3, h4, h5, _h6⟩ :=
      runRecords_get_fresh c sid h e rest
    have htot : 0 < s'.totalCount := by rw [h5]; simp
    have herr : s'.errorCount = (e :: rest).countP (fun x => !x.1.success) := h4
    have hcnt : s'.errorCount ≤ s'.totalCount := by
      rw [herr, h5]
      exact List.countP_le_length _
    refine ⟨?_, ?_, ?_, ?_, ?_, ?_⟩
    · simp only [MetricsCollector.getMetrics, hs']
      rw [h1, truthySum_eq_optSum]
    · simp only [MetricsCollector.getMetrics, hs']
      rw [h2, truthySum_eq_optSum]
    · simp [MetricsCollector.getMetrics, hs']
    · simp only [MetricsCollector.getMetrics, hs', gt_iff_lt, htot, if_pos]
      positivity
    · simp only [MetricsCollector.getMetrics, hs', gt_iff_lt, htot, if_pos]
      have hle1 : (s'.errorCount : ℚ) / (s'.totalCount : ℚ) ≤ 1 := by
        rw [div_le_one (by exact_mod_cast htot)]
        exact_mod_cast hcnt
      nlinarith
    · simp only [MetricsCollector.getMetrics, hs', gt_iff_lt, htot, if_pos]
      have htQ : (0 : ℚ) < (s'.totalCount : ℚ) := by exact_mod_cast htot
      constructor
      · intro hz
        have : (s'.errorCount : ℚ) = 0 := by
          rcases mul_eq_zero.mp hz with hz2 | hz2
          · rcases div_eq_zero_iff.mp hz2 with hz3 | hz3
            · exact hz3
            · exact absurd hz3 (by exact_mod_cast htQ.ne')
          · norm_num at hz2
        have hec : s'.errorCount = 0 := by exact_mod_cast this
        rw [herr] at hec
        intro x hx
        have := List.countP_eq_zero.mp hec x hx
        simpa using this
      · intro hall
        have hec : s'.errorCount = 0 := by
          rw [herr]
          apply List.countP_eq_zero.mpr
          intro x hx
          simp [hall x hx]
        rw [hec]
        norm_num

/-- Concrete event used in witnesses. -/
def witEvent : ToolUseData :=
  { tool := "Read", duration := 5, success := true
  , inputTokens := some 10, outputTokens := some 20 }

theorem getMetrics_tokens_errorRate_wit :
    ((runRecords MetricsCollector.empty "s" [(witEvent, 0)]).getMetrics
        "s" 0).tokens.input = optSum [witEvent.inputTokens] ∧
    ((runRecords MetricsCollector.empty "s" [(witEvent, 0)]).getMetrics
        "s" 0).tokens.output = optSum [witEvent.outputTokens] ∧
    ((runRecords MetricsCollector.empty "s" [(witEvent, 0)]).getMetrics
        "s" 0).tokens.total
      = ((runRecords MetricsCollector.empty "s" [(witEvent, 0)]).getMetrics
          "s" 0).tokens.input
        + ((runRecords MetricsCollector.empty "s" [(witEvent, 0)]).getMetrics
            "s" 0).tokens.output ∧
    0 ≤ ((runRecords MetricsCollector.empty "s" [(witEvent, 0)]).getMetrics
          "s" 0).errorRate ∧
    ((runRecords MetricsCollector.empty "s" [(witEvent, 0)]).getMetrics
        "s" 0).errorRate ≤ 100 ∧
    (((runRecords MetricsCollector.empty "s" [(witEvent, 0)]).getMetrics
        "s" 0).errorRate = 0 ↔
      ∀ e ∈ [((witEvent, (0 : ℚ)))], e.1.success = true) :=
  getMetrics_tokens_errorRate MetricsCollector.empty "s" _ 0 rfl

/-! ## Unknown and cleared sessions -/

/-- Claim C8: getMetrics for a never-recorded session id, and for a session
after clearSession, returns the all-zero snapshot and raises no error. -/
theorem getMetrics_unknown_zero (c : MetricsCollector) (sid : String)
    (now : ℚ) :
    (mapGet c.sessions sid = none → c.getMetrics sid now = zeroMetrics) ∧
    (c.clearSession sid).getMetrics sid now = zeroMetrics := by
  constructor
  · intro h
    simp [MetricsCollector.getMetrics, h]
  · have h : mapGet (c.clearSession sid).sessions sid = none :=
      mapGet_mapDel_self c.sessions sid
    simp [MetricsCollector.getMetrics, h]

theorem getMetrics_unknown_zero_wit :
    MetricsCollector.empty.getMetrics "never-seen" 0 = zeroMetrics :=
  (getMetrics_unknown_zero MetricsCollector.empty "never-seen" 0).1 rfl

/-! ## Frame property of recordToolUse -/

theorem mapKeys_getAllMetrics (c : MetricsCollector) (now : ℚ) :
    mapKeys (c.getAllMetrics now) = mapKeys c.sessions := by
  simp [MetricsCollector.getAllMetrics, mapKeys]

/-- Claim C10: recordToolUse on session A leaves any other session B's
snapshot unchanged (at a fixed observation time) and does not change B's
membership in getAllMetrics. -/
theorem recordToolUse_frame (c : MetricsCollector) (A B : String)
    (d : ToolUseData) (tA now now2 : ℚ) (hAB : A ≠ B) :
    (c.recordToolUse A d tA).getMetrics B now = c.getMetrics B now ∧
    (B ∈ mapKeys ((c.recordToolUse A d tA).getAllMetrics now2) ↔
      B ∈ mapKeys (c.getAllMetrics now2)) := by
  have hsess : (c.recordToolUse A d tA).sessions
      = mapSet c.sessions A (recordStep (mapGet c.sessions A) d tA) := rfl
  have hget : mapGet (c.recordToolUse A d tA).sessions B = mapGet c.sessions B := by
    rw [hsess]
    exact mapGet_mapSet_ne _ _ _ _ hAB
  constructor
  · simp only [MetricsCollector.getMetrics, hget]
  · rw [mapKeys_getAllMetrics, mapKeys_getAllMetrics, hsess]
    rcases mapKeys_mapSet_of_mem c.sessions A
      (recordStep (mapGet c.sessions A) d tA) with hk | hk
    · rw [hk]
    · rw [hk]
      simp [Ne.symm hAB]

theorem recordToolUse_frame_wit :
    (MetricsCollector.empty.recordToolUse "a"
        { tool := "Read", duration := 5, success := true
        , inputTokens := none, outputTokens := none } 0).getMetrics "b" 1
      = MetricsCollector.empty.getMetrics "b" 1 ∧
    ("b" ∈ mapKeys ((MetricsCollector.empty.recordToolUse "a"
        { tool := "Read", duration := 5, success := true
        , inputTokens := none, outputTokens := none } 0).getAllMetrics 1) ↔
      "b" ∈ mapKeys (MetricsCollector.empty.getAllMetrics 1)) :=
  recordToolUse_frame MetricsCollector.empty "a" "b" _ 0 1 1 (by decide)

/-! ## AgentHierarchy (src/server/AgentHierarchy.ts) -/

structure AgentNode where
  sessionId : String
  parentId : Option String
  toolUseId : Option String
  description : Option String
  subagentType : Option String
  spawnedAt : ℕ
  completedAt : Option ℕ
deriving DecidableEq

/-- The options record of `addChild`. -/
structure ChildOptions where
  toolUseId : String
  description : Option String
  subagentType : Option String
deriving DecidableEq

/-- JS `Set.add`: appends if absent (insertion order preserved). -/
def setAdd (s : List String) (x : String) : List String :=
  if x ∈ s then s else s ++ [x]

/-- JS `Set.delete`. -/
def setDel (s : List String) (x : String) : List String :=
  s.filter (fun y => y ≠ x)

structure AgentHierarchy where
  nodes : List (String × AgentNode)
  childrenMap : List (String × List String)
deriving DecidableEq

def AgentHierarchy.empty : AgentHierarchy := ⟨[], []⟩

/-- The node record created by `addRoot`. -/
def mkRootNode (sessionId : String) (now : ℕ) : AgentNode :=
  { sessionId := sessionId, parentId := none, toolUseId := none
  , description := none, subagentType := none, spawnedAt := now
  , completedAt := none }

def AgentHierarchy.addRoot (h : AgentHierarchy) (sessionId : String)
    (now : ℕ) : AgentHierarchy :=
  if (mapGet h.nodes sessionId).isSome then h
  else { h with nodes := mapSet h.nodes sessionId (mkRootNode sessionId now) }

/-- The node record created (or overwritten) by `addChild`. -/
def mkChildNode (childId parentId : String) (options : ChildOptions)
    (now : ℕ) : AgentNode :=
  { sessionId := childId, parentId := some parentId
  , toolUseId := some options.toolUseId, description := options.description
  , subagentType := options.subagentType, spawnedAt := now
  , completedAt := none }

def AgentHierarchy.addChild (h : AgentHierarchy) (parentId childId : String)
    (options : ChildOptions) (now : ℕ) : AgentHierarchy :=
  let h1 := if (mapGet h.nodes parentId).isSome then h
            else h.addRoot parentId now
  let h2 := { h1 with nodes := mapSet h1.nodes childId (mkChildNode childId parentId options now) }
  let cm := if (mapGet h2.childrenMap parentId).isSome then h2.childrenMap
            else mapSet h2.childrenMap parentId []
  { h2 with childrenMap := mapUpdate cm parentId (fun s => setAdd s childId) }

def AgentHierarchy.markCompleted (h : AgentHierarchy) (sessionId : String)
    (now : ℕ) : AgentHierarchy :=
  match mapGet h.nodes sessionId with
  | some node =>
    { h with nodes := mapSet h.nodes sessionId ({ node with completedAt := some now }) }
  | none => h

def AgentHierarchy.getNode (h : AgentHierarchy) (sessionId : String) :
    Option AgentNode :=
  mapGet h.nodes sessionId

def AgentHierarchy.getParent (h : AgentHierarchy) (sessionId : String) :
    Option AgentNode :=
  match mapGet h.nodes sessionId with
  | none => none
  | some node =>
    match node.parentId with
    | none => none
    | some pid => mapGet h.nodes pid

def AgentHierarchy.getChildren (h : AgentHierarchy) (sessionId : String) :
    List AgentNode :=
  (mapGetD h.childrenMap sessionId []).filterMap (fun id => mapGet h.nodes id)

/-- The parent-pointer walk of `getAncestors`, with fuel.  A `none` result
at every fuel models divergence of the source `while` loop. -/
def ancWalk (nodes : List (String × AgentNode)) :
    Option AgentNode → ℕ → Option (List AgentNode)
  | _, 0 => none
  | none, _ + 1 => some []
  | some cur, fuel + 1 =>
    match cur.parentId with
    | none => some []
    | some pid =>
      match mapGet nodes pid with
      | none => some []
      | some parent => (ancWalk nodes (some parent) fuel).map (fun l => parent :: l)

def AgentHierarchy.getAncestors (h : AgentHierarchy) (sessionId : String) :
    Option (List AgentNode) :=
  ancWalk h.nodes (mapGet h.nodes sessionId) (h.nodes.length + 1)

/-- The BFS of `getDescendants`, with fuel (queue, then accumulator). -/
def descWalk (h : AgentHierarchy) :
    List AgentNode → List AgentNode → ℕ → Option (List AgentNode)
  | [], acc, _ => some acc.reverse
  | _ :: _, _, 0 => none
  | n :: rest, acc, fuel + 1 =>
    descWalk h (rest ++ h.getChildren n.sessionId) (n :: acc) fuel

def AgentHierarchy.getDescendants (h : AgentHierarchy) (sessionId : String) :
    Option (List AgentNode) :=
  descWalk h (h.getChildren sessionId) [] (h.nodes.length + 1)

def AgentHierarchy.getRoots (h : AgentHierarchy) : List AgentNode :=
  (h.nodes.map (fun e => e.2)).filter (fun n => n.parentId = none)

def AgentHierarchy.getDepth (h : AgentHierarchy) (sessionId : String) :
    Option ℕ :=
  (h.getAncestors sessionId).map List.length

def AgentHierarchy.has (h : AgentHierarchy) (sessionId : String) : Bool :=
  (mapGet h.nodes sessionId).isSome

/-- Deletion of one node from both maps, as in the descendant loop of
`remove`. -/
def delNode (acc : AgentHierarchy) (d : AgentNode) : AgentHierarchy :=
  { nodes := mapDel acc.nodes d.sessionId
  , childrenMap := mapDel acc.childrenMap d.sessionId }

/-- The `remove` step deleting sessionId from its former parent's children
set (`siblings?.delete(sessionId)`). -/
def removeChildrenStep (h : AgentHierarchy) (sessionId : String) :
    AgentHierarchy :=
  match mapGet h.nodes sessionId with
  | some node =>
    match node.parentId with
    | some pid =>
      { h with childrenMap :=
          mapUpdate h.childrenMap pid (fun s => setDel s sessionId) }
    | none => h
  | none => h

def AgentHierarchy.remove (h : AgentHierarchy) (sessionId : String) :
    Option AgentHierarchy :=
  match h.getDescendants sessionId with
  | none => none
  | some descendants =>
    let h1 := descendants.foldl delNode h
    let h2 := removeChildrenStep h1 sessionId
    some { nodes := mapDel h2.nodes sessionId
         , childrenMap := mapDel h2.childrenMap sessionId }

def AgentHierarchy.clear (_h : AgentHierarchy) : AgentHierarchy := ⟨[], []⟩

/-! ## Build operations (addRoot/addChild sequences) -/

inductive BOp where
  | root (sessionId : String) (now : ℕ)
  | child (parentId childId : String) (options : ChildOptions) (now : ℕ)
deriving DecidableEq

def runB (h : AgentHierarchy) : List BOp → AgentHierarchy
  | [] => h
  | BOp.root sid t :: rest => runB (h.addRoot sid t) rest
  | BOp.child p c o t :: rest => runB (h.addChild p c o t) rest

/-- A build sequence is fresh when every `addChild` call supplies a child
id that is not yet a node and differs from the parent id. -/
def freshOkB (h : AgentHierarchy) : List BOp → Bool
  | [] => true
  | BOp.root sid t :: rest => freshOkB (h.addRoot sid t) rest
  | BOp.child p c o t :: rest =>
    ((mapGet h.nodes c).isNone && decide (c ≠ p))
      && freshOkB (h.addChild p c o t) rest

/-! ## Additional map lemmas -/

theorem mapSet_eq_append {α : Type} (m : List (String × α)) (k : String)
    (v : α) (h : mapGet m k = none) : mapSet m k v = m ++ [(k, v)] := by
  induction m with
  | nil => rfl
  | cons e rest ih =>
    obtain ⟨a, b⟩ := e
    simp only [mapGet] at h
    by_cases he : a = k
    · rw [if_pos he] at h; cases h
    · rw [if_neg he] at h
      simp [mapSet, he, ih h]

theorem mapGet_append_left {α : Type} (m l : List (String × α)) (k : String)
    (v : α) (h : mapGet m k = some v) : mapGet (m ++ l) k = some v := by
  induction m with
  | nil => simp [mapGet] at h
  | cons e rest ih =>
    obtain ⟨a, b⟩ := e
    simp only [mapGet] at h ⊢
    by_cases he : a = k
    · rw [if_pos he] at h ⊢; exact h
    · rw [if_neg he] at h ⊢; exact ih h

theorem mapGet_append_right {α : Type} (m l : List (String × α)) (k : String)
    (h : mapGet m k = none) : mapGet (m ++ l) k = mapGet l k := by
  induction m with
  | nil => simp
  | cons e rest ih =>
    obtain ⟨a, b⟩ := e
    simp only [mapGet] at h ⊢
    by_cases he : a = k
    · rw [if_pos he] at h; cases h
    · rw [if_neg he] at h
      simp only [List.cons_append, mapGet, if_neg he]
      exact ih h

theorem mapGet_isSome_of_mem_keys {α : Type} (m : List (String × α))
    (k : String) (h : k ∈ mapKeys m) : (mapGet m k).isSome := by
  induction m with
  | nil => simp [mapKeys] at h
  | cons e rest ih =>
    obtain ⟨a, b⟩ := e
    simp only [mapKeys, List.map_cons, List.mem_cons] at h
    by_cases he : a = k
    · simp [mapGet, he]
    · simp only [mapGet, if_neg he]
      rcases h with h | h
      · exact absurd h.symm he
      · exact ih (by simpa [mapKeys] using h)

theorem not_mem_keys_of_mapGet_none {α : Type} (m : List (String × α))
    (k : String) (h : mapGet m k = none) : k ∉ mapKeys m := by
  intro hmem
  have := mapGet_isSome_of_mem_keys m k hmem
  rw [h] at this
  cases this

theorem mapGet_inj {α : Type} (m : List (String × α)) (k : String)
    (v w : α) (hv : mapGet m k = some v) (hw : mapGet m k = some w) :
    v = w := by
  rw [hv] at hw
  cases hw
  rfl

theorem mapKeys_append {α : Type} (m l : List (String × α)) :
    mapKeys (m ++ l) = mapKeys m ++ mapKeys l := by
  simp [mapKeys]

theorem mapKeys_mapUpdate {α : Type} (m : List (String × α)) (k : String)
    (f : α → α) : mapKeys (mapUpdate m k f) = mapKeys m := by
  induction m with
  | nil => rfl
  | cons e rest ih =>
    obtain ⟨a, b⟩ := e
    by_cases he : a = k
    · simp only [mapUpdate, if_pos he, mapKeys, List.map_cons]
      exact congrArg (fun l => a :: l) ih
    · simp only [mapUpdate, if_neg he, mapKeys, List.map_cons]
      exact congrArg (fun l => a :: l) ih

theorem mapGet_mapUpdate_self {α : Type} (m : List (String × α)) (k : String)
    (f : α → α) : mapGet (mapUpdate m k f) k = (mapGet m k).map f := by
  induction m with
  | nil => rfl
  | cons e rest ih =>
    obtain ⟨a, b⟩ := e
    by_cases he : a = k
    · subst he
      simp [mapUpdate, mapGet]
    · simp [mapUpdate, mapGet, he, ih]

theorem mapGet_mapUpdate_ne {α : Type} (m : List (String × α)) (k k' : String)
    (f : α → α) (hne : k ≠ k') : mapGet (mapUpdate m k f) k' = mapGet m k' := by
  induction m with
  | nil => rfl
  | cons e rest ih =>
    obtain ⟨a, b⟩ := e
    by_cases he : a = k
    · subst he
      simp [mapUpdate, mapGet, hne, ih]
    · by_cases he2 : a = k'
      · subst he2
        rw [mapUpdate, if_neg he]
        simp [mapGet]
      · simp [mapUpdate, mapGet, he, he2, ih]

theorem mem_mapUpdate {α : Type} (m : List (String × α)) (k : String)
    (f : α → α) (e : String × α) (h : e ∈ mapUpdate m k f) :
    ∃ e0 ∈ m, e.1 = e0.1 ∧ (e = e0 ∨ (e0.1 = k ∧ e = (e0.1, f e0.2))) := by
  induction m with
  | nil => simp [mapUpdate] at h
  | cons e1 rest ih =>
    obtain ⟨a, b⟩ := e1
    by_cases he : a = k
    · rw [mapUpdate, if_pos he] at h
      rcases List.mem_cons.mp h with rfl | h
      · exact ⟨(a, b), List.mem_cons_self _ _, rfl, Or.inr ⟨he, rfl⟩⟩
      · obtain ⟨e0, he0, h1, h2⟩ := ih h
        exact ⟨e0, List.mem_cons_of_mem _ he0, h1, h2⟩
    · rw [mapUpdate, if_neg he] at h
      rcases List.mem_cons.mp h with rfl | h
      · exact ⟨(a, b), List.mem_cons_self _ _, rfl, Or.inl rfl⟩
      · obtain ⟨e0, he0, h1, h2⟩ := ih h
        exact ⟨e0, List.mem_cons_of_mem _ he0, h1, h2⟩

theorem mem_of_mem_mapDel {α : Type} (m : List (String × α)) (k : String)
    (e : String × α) (h : e ∈ mapDel m k) : e ∈ m ∧ e.1 ≠ k := by
  simp only [mapDel, List.mem_filter, ne_eq, decide_not] at h
  exact ⟨h.1, by simpa using h.2⟩

/-! ## Hierarchy invariants -/

/-- Every node is stored under its own session id. -/
def StoredKey (m : List (String × AgentNode)) : Prop :=
  ∀ e ∈ m, e.2.sessionId = e.1

/-- Every stored parent pointer refers to a present node. -/
def ParentPresent (m : List (String × AgentNode)) : Prop :=
  ∀ e ∈ m, ∀ p, e.2.parentId = some p → (mapGet m p).isSome = true

/-- `rank` strictly decreases along stored parent pointers and is bounded
by the number of nodes: this is the acyclicity certificate. -/
def RankedBy (m : List (String × AgentNode)) (rank : String → ℕ) : Prop :=
  (∀ k n p pn, mapGet m k = some n → n.parentId = some p →
      mapGet m p = some pn → rank p < rank k) ∧
  (∀ k n, mapGet m k = some n → rank k < m.length)

theorem ancWalk_terminates (m : List (String × AgentNode))
    (rank : String → ℕ) (hs : StoredKey m)
    (hr : ∀ k n p pn, mapGet m k = some n → n.parentId = some p →
      mapGet m p = some pn → rank p < rank k) :
    ∀ fuel k n, mapGet m k = some n → rank k < fuel →
      ∃ l, ancWalk m (some n) fuel = some l ∧
        ∀ a ∈ l, mapGet m a.sessionId = some a ∧ rank a.sessionId < rank k := by
  intro fuel
  induction fuel with
  | zero => intro k n _ hlt; omega
  | succ f ih =>
    intro k n hget hlt
    cases hp : n.parentId with
    | none => exact ⟨[], by simp [ancWalk, hp], by simp⟩
    | some pid =>
      cases hpp : mapGet m pid with
      | none => exact ⟨[], by simp [ancWalk, hp, hpp], by simp⟩
      | some parent =>
        have hkey : parent.sessionId = pid :=
          hs _ (mem_of_mapGet_eq_some m pid parent hpp)
        have hrank : rank pid < rank k := hr k n pid parent hget hp hpp
        obtain ⟨l, hl, hall⟩ := ih pid parent hpp (by omega)
        refine ⟨parent :: l, ?_, ?_⟩
        · simp [ancWalk, hp, hpp, hl]
        · intro a ha
          rcases List.mem_cons.mp ha with rfl | ha
          · rw [hkey]; exact ⟨hpp, hrank⟩
          · obtain ⟨h1, h2⟩ := hall a ha
            exact ⟨h1, by omega⟩

theorem ancWalk_mono (m : List (String × AgentNode)) :
    ∀ f1 f2 c l, f1 ≤ f2 → ancWalk m c f1 = some l →
      ancWalk m c f2 = some l := by
  intro f1
  induction f1 with
  | zero => intro f2 c l _ h; simp [ancWalk] at h
  | succ f ih =>
    intro f2 c l hle h
    obtain ⟨f2', rfl⟩ : ∃ f2', f2 = f2' + 1 := ⟨f2 - 1, by omega⟩
    cases c with
    | none => simpa [ancWalk] using h
    | some cur =>
      cases hp : cur.parentId with
      | none => rw [ancWalk] at h ⊢; simpa [hp] using h
      | some pid =>
        cases hpp : mapGet m pid with
        | none => rw [ancWalk] at h ⊢; simpa [hp, hpp] using h
        | some parent =>
          rw [ancWalk] at h ⊢
          simp only [hp, hpp] at h ⊢
          obtain ⟨l', hl', rfl⟩ := Option.map_eq_some'.mp h
          rw [ih f2' (some parent) l' (by omega) hl']
          rfl

/-- If the nodes admit a bounded rank, `getAncestors` terminates and the
result never contains the starting session id. -/
theorem getAncestors_forest (h : AgentHierarchy) (rank : String → ℕ)
    (hs : StoredKey h.nodes) (hrk : RankedBy h.nodes rank) (x : String) :
    ∃ l, h.getAncestors x = some l ∧
      x ∉ l.map (fun a => a.sessionId) ∧
      ∀ a ∈ l, mapGet h.nodes a.sessionId = some a := by
  cases hx : mapGet h.nodes x with
  | none =>
    refine ⟨[], ?_, by simp, by simp⟩
    rw [AgentHierarchy.getAncestors, hx]
    rfl
  | some n =>
    have hb := hrk.2 x n hx
    obtain ⟨l, hl, hall⟩ := ancWalk_terminates h.nodes rank hs hrk.1
      (h.nodes.length + 1) x n hx (by omega)
    refine ⟨l, ?_, ?_, fun a ha => (hall a ha).1⟩
    · rw [AgentHierarchy.getAncestors, hx, hl]
    · intro hmem
      simp only [List.mem_map] at hmem
      obtain ⟨a, ha, hkey⟩ := hmem
      have := (hall a ha).2
      rw [hkey] at this
      omega

theorem mapGet_append_singleton_cases {α : Type} (m : List (String × α))
    (k0 k : String) (v0 : α) (v : α)
    (h : mapGet (m ++ [(k0, v0)]) k = some v) :
    mapGet m k = some v ∨ (k = k0 ∧ mapGet m k = none ∧ v = v0) := by
  cases hm : mapGet m k with
  | some w =>
    left
    exact (mapGet_append_left m [(k0, v0)] k w hm).symm.trans h
  | none =>
    right
    rw [mapGet_append_right m [(k0, v0)] k hm] at h
    simp only [mapGet] at h
    by_cases hk : k0 = k
    · rw [if_pos hk] at h
      injection h with h
      exact ⟨hk.symm, rfl, h.symm⟩
    · rw [if_neg hk] at h
      simp [mapGet] at h

theorem mapGet_append_singleton_self {α : Type} (m : List (String × α))
    (k : String) (v : α) (h : mapGet m k = none) :
    mapGet (m ++ [(k, v)]) k = some v := by
  rw [mapGet_append_right m [(k, v)] k h]
  simp [mapGet]

theorem setAdd_nodup (s : List String) (x : String) (h : s.Nodup) :
    (setAdd s x).Nodup := by
  unfold setAdd
  by_cases hx : x ∈ s
  · simpa [hx] using h
  · rw [if_neg hx, List.nodup_append]
    refine ⟨h, List.nodup_singleton x, ?_⟩
    intro y hy hy2
    simp at hy2
    subst hy2
    exact hx hy

theorem mem_setAdd (s : List String) (x y : String) (h : y ∈ setAdd s x) :
    y ∈ s ∨ y = x := by
  unfold setAdd at h
  by_cases hx : x ∈ s
  · rw [if_pos hx] at h; exact Or.inl h
  · rw [if_neg hx] at h
    rcases List.mem_append.mp h with h | h
    · exact Or.inl h
    · simp at h; exact Or.inr h

/-- Well-formedness of a hierarchy state: unique node keys, nodes stored
under their own id, parent pointers present, children-map keys backed by
nodes, duplicate-free child sets mirroring the parent pointers, and an
acyclicity rank. -/
structure HierWF (h : AgentHierarchy) : Prop where
  nodupN : (mapKeys h.nodes).Nodup
  stored : StoredKey h.nodes
  parentPresent : ParentPresent h.nodes
  cmSub : ∀ e ∈ h.childrenMap, (mapGet h.nodes e.1).isSome = true
  setsNodup : ∀ e ∈ h.childrenMap, e.2.Nodup
  mirror : ∀ e ∈ h.childrenMap, ∀ c ∈ e.2,
    ∃ nd, mapGet h.nodes c = some nd ∧ nd.parentId = some e.1
  ranked : ∃ rank : String → ℕ, RankedBy h.nodes rank

theorem hierWF_empty : HierWF AgentHierarchy.empty := by
  refine ⟨?_, ?_, ?_, ?_, ?_, ?_, ⟨fun _ => 0, ?_, ?_⟩⟩
  · simp [AgentHierarchy.empty, mapKeys]
  · intro e he; simp [AgentHierarchy.empty] at he
  · intro e he; simp [AgentHierarchy.empty] at he
  · intro e he; simp [AgentHierarchy.empty] at he
  · intro e he; simp [AgentHierarchy.empty] at he
  · intro e he; simp [AgentHierarchy.empty] at he
  · intro k n p pn hk; simp [AgentHierarchy.empty, mapGet] at hk
  · intro k n hk; simp [AgentHierarchy.empty, mapGet] at hk

/-- Appending a fresh node whose parent (if any) is already present, and
whose key nobody points to, preserves the node-level invariants. -/
theorem nodesWF_append (m : List (String × AgentNode)) (k : String)
    (nd : AgentNode)
    (hnodup : (mapKeys m).Nodup) (hstored : StoredKey m)
    (hpp : ParentPresent m) (hrk : ∃ rank, RankedBy m rank)
    (hfresh : mapGet m k = none) (hkey : nd.sessionId = k)
    (hpar : ∀ p, nd.parentId = some p → (mapGet m p).isSome = true) :
    (mapKeys (m ++ [(k, nd)])).Nodup ∧ StoredKey (m ++ [(k, nd)]) ∧
    ParentPresent (m ++ [(k, nd)]) ∧
    ∃ rank, RankedBy (m ++ [(k, nd)]) rank := by
  obtain ⟨rank, hdec, hbnd⟩ := hrk
  have hnotmem : k ∉ mapKeys m := not_mem_keys_of_mapGet_none m k hfresh
  refine ⟨?_, ?_, ?_, ?_⟩
  · rw [mapKeys_append]
    simp only [mapKeys, List.map_cons, List.map_nil]
    rw [List.nodup_append]
    refine ⟨hnodup, List.nodup_singleton k, ?_⟩
    intro x hx hx2
    simp at hx2
    subst hx2
    exact hnotmem hx
  · intro e he
    rcases List.mem_append.mp he with he | he
    · exact hstored e he
    · simp at he
      subst he
      exact hkey
  · intro e he p hp
    rcases List.mem_append.mp he with he | he
    · have := hpp e he p hp
      obtain ⟨v, hv⟩ := Option.isSome_iff_exists.mp this
      rw [mapGet_append_left m [(k, nd)] p v hv]
      rfl
    · simp at he
      subst he
      have := hpar p hp
      obtain ⟨v, hv⟩ := Option.isSome_iff_exists.mp this
      rw [mapGet_append_left m [(k, nd)] p v hv]
      rfl
  · refine ⟨fun x => if x = k then m.length else rank x, ?_, ?_⟩
    · intro k1 n1 p1 pn1 hk1 hp1 hpn1
      rcases mapGet_append_singleton_cases m k k1 nd n1 hk1 with
        hk1m | ⟨heq, hk1n, hnd⟩
      · have hk1ne : k1 ≠ k := by
          intro he
          rw [he, hfresh] at hk1m
          cases hk1m
        have hpmem := hpp (k1, n1) (mem_of_mapGet_eq_some m k1 n1 hk1m) p1 hp1
        obtain ⟨pv, hpv⟩ := Option.isSome_iff_exists.mp hpmem
        have hp1ne : p1 ≠ k := by
          intro he
          rw [he, hfresh] at hpv
          cases hpv
        have hpn1m : mapGet m p1 = some pn1 := by
          have h3 := mapGet_append_left m [(k, nd)] p1 pv hpv
          rw [h3] at hpn1
          injection hpn1 with hpn1
          rw [← hpn1]
          exact hpv
        simp only [if_neg hk1ne, if_neg hp1ne]
        exact hdec k1 n1 p1 pn1 hk1m hp1 hpn1m
      · have hp1nd : nd.parentId = some p1 := by rw [← hnd]; exact hp1
        have hparent := hpar p1 hp1nd
        obtain ⟨pv, hpv⟩ := Option.isSome_iff_exists.mp hparent
        have hp1ne : p1 ≠ k := by
          intro he
          rw [he, hfresh] at hpv
          cases hpv
        simp only [heq, if_pos rfl, if_neg hp1ne]
        exact hbnd p1 pv hpv
    · intro k1 n1 hk1
      rcases mapGet_append_singleton_cases m k k1 nd n1 hk1 with
        hk1m | ⟨heq, hk1n, hnd⟩
      · have hk1ne : k1 ≠ k := by
          intro he
          rw [he, hfresh] at hk1m
          cases hk1m
        simp only [if_neg hk1ne]
        calc rank k1 < m.length := hbnd k1 n1 hk1m
          _ ≤ (m ++ [(k, nd)]).length := by simp
      · simp only [heq, if_pos rfl]
        simp

theorem hierWF_addRoot (h : AgentHierarchy) (sid : String) (t : ℕ)
    (hw : HierWF h) : HierWF (h.addRoot sid t) := by
  by_cases hex : (mapGet h.nodes sid).isSome = true
  · rw [AgentHierarchy.addRoot, if_pos hex]
    exact hw
  · have hnone : mapGet h.nodes sid = none := by
      cases hg : mapGet h.nodes sid
      · rfl
      · rw [hg] at hex; simp at hex
    rw [AgentHierarchy.addRoot, if_neg hex]
    have happ : mapSet h.nodes sid (mkRootNode sid t)
        = h.nodes ++ [(sid, mkRootNode sid t)] :=
      mapSet_eq_append _ _ _ hnone
    obtain ⟨hN1, hN2, hN3, hN4⟩ := nodesWF_append h.nodes sid (mkRootNode sid t)
      hw.nodupN hw.stored hw.parentPresent hw.ranked hnone rfl
      (by intro q hq; simp [mkRootNode] at hq)
    refine ⟨?_, ?_, ?_, ?_, ?_, ?_, ?_⟩ <;> simp only [happ]
    · exact hN1
    · exact hN2
    · exact hN3
    · intro e he
      have := hw.cmSub e he
      obtain ⟨v, hv⟩ := Option.isSome_iff_exists.mp this
      rw [mapGet_append_left h.nodes _ e.1 v hv]
      rfl
    · exact hw.setsNodup
    · intro e he x hx
      obtain ⟨nd, hnd, hpar⟩ := hw.mirror e he x hx
      exact ⟨nd, mapGet_append_left _ _ _ _ hnd, hpar⟩
    · exact hN4

theorem addRoot_childrenMap (h : AgentHierarchy) (sid : String) (t : ℕ) :
    (h.addRoot sid t).childrenMap = h.childrenMap := by
  rw [AgentHierarchy.addRoot]
  split_ifs <;> rfl

theorem hierWF_addChild (h : AgentHierarchy) (p c : String) (o : ChildOptions)
    (t : ℕ) (hw : HierWF h) (hfresh : mapGet h.nodes c = none) (hcp : c ≠ p) :
    HierWF (h.addChild p c o t) := by
  generalize hH1 : (if (mapGet h.nodes p).isSome then h else h.addRoot p t) = H1
  have hw1 : HierWF H1 := by
    rw [← hH1]
    split_ifs with hh
    · exact hw
    · exact hierWF_addRoot h p t hw
  have hC : (mapGet H1.nodes p).isSome = true := by
    rw [← hH1]
    split_ifs with hh
    · exact hh
    · have hpn : mapGet h.nodes p = none := by
        cases hg : mapGet h.nodes p
        · rfl
        · rw [hg] at hh; simp at hh
      rw [AgentHierarchy.addRoot, if_neg hh]
      have := mapGet_append_singleton_self h.nodes p (mkRootNode p t) hpn
      rw [show ({ h with nodes := mapSet h.nodes p (mkRootNode p t) } :
        AgentHierarchy).nodes = mapSet h.nodes p (mkRootNode p t) from rfl]
      rw [mapSet_eq_append _ _ _ hpn, this]
      rfl
  have hD : mapGet H1.nodes c = none := by
    rw [← hH1]
    split_ifs with hh
    · exact hfresh
    · have hpn : mapGet h.nodes p = none := by
        cases hg : mapGet h.nodes p
        · rfl
        · rw [hg] at hh; simp at hh
      rw [AgentHierarchy.addRoot, if_neg hh]
      rw [show ({ h with nodes := mapSet h.nodes p (mkRootNode p t) } :
        AgentHierarchy).nodes = mapSet h.nodes p (mkRootNode p t) from rfl]
      rw [mapSet_eq_append _ _ _ hpn, mapGet_append_right _ _ _ hfresh]
      simp [mapGet, Ne.symm hcp]
  have hEq : h.addChild p c o t =
      { nodes := mapSet H1.nodes c (mkChildNode c p o t)
      , childrenMap := mapUpdate
          (if (mapGet H1.childrenMap p).isSome then H1.childrenMap
           else mapSet H1.childrenMap p [])
          p (fun s => setAdd s c) } := by
    rw [← hH1]
    rfl
  rw [hEq]
  have happ : mapSet H1.nodes c (mkChildNode c p o t)
      = H1.nodes ++ [(c, mkChildNode c p o t)] :=
    mapSet_eq_append _ _ _ hD
  obtain ⟨hN1, hN2, hN3, hN4⟩ := nodesWF_append H1.nodes c (mkChildNode c p o t)
    hw1.nodupN hw1.stored hw1.parentPresent hw1.ranked hD rfl
    (by
      intro q hq
      simp only [mkChildNode, Option.some.injEq] at hq
      rw [← hq]
      exact hC)
  have hcN2 : mapGet (H1.nodes ++ [(c, mkChildNode c p o t)]) c
      = some (mkChildNode c p o t) :=
    mapGet_append_singleton_self _ _ _ hD
  -- facts about the intermediate children map
  have hcm1Sub : ∀ e ∈ (if (mapGet H1.childrenMap p).isSome then H1.childrenMap
      else mapSet H1.childrenMap p []),
      (mapGet (H1.nodes ++ [(c, mkChildNode c p o t)]) e.1).isSome = true := by
    intro e he
    split_ifs at he with hcm
    · have := hw1.cmSub e he
      obtain ⟨v, hv⟩ := Option.isSome_iff_exists.mp this
      rw [mapGet_append_left _ _ _ _ hv]
      rfl
    · have hcmn : mapGet H1.childrenMap p = none := by
        cases hg : mapGet H1.childrenMap p
        · rfl
        · rw [hg] at hcm; simp at hcm
      rw [mapSet_eq_append _ _ _ hcmn] at he
      rcases List.mem_append.mp he with he | he
      · have := hw1.cmSub e he
        obtain ⟨v, hv⟩ := Option.isSome_iff_exists.mp this
        rw [mapGet_append_left _ _ _ _ hv]
        rfl
      · simp at he
        subst he
        obtain ⟨v, hv⟩ := Option.isSome_iff_exists.mp hC
        rw [mapGet_append_left _ _ _ _ hv]
        rfl
  have hcm1Sets : ∀ e ∈ (if (mapGet H1.childrenMap p).isSome then H1.childrenMap
      else mapSet H1.childrenMap p []), e.2.Nodup := by
    intro e he
    split_ifs at he with hcm
    · exact hw1.setsNodup e he
    · have hcmn : mapGet H1.childrenMap p = none := by
        cases hg : mapGet H1.childrenMap p
        · rfl
        · rw [hg] at hcm; simp at hcm
      rw [mapSet_eq_append _ _ _ hcmn] at he
      rcases List.mem_append.mp he with he | he
      · exact hw1.setsNodup e he
      · simp at he
        subst he
        exact List.nodup_nil
  have hcm1Mirror : ∀ e ∈ (if (mapGet H1.childrenMap p).isSome then H1.childrenMap
      else mapSet H1.childrenMap p []), ∀ x ∈ e.2,
      ∃ nd, mapGet (H1.nodes ++ [(c, mkChildNode c p o t)]) x = some nd ∧
        nd.parentId = some e.1 := by
    intro e he x hx
    have hmirror1 : ∃ nd, mapGet H1.nodes x = some nd ∧ nd.parentId = some e.1 := by
      split_ifs at he with hcm
      · exact hw1.mirror e he x hx
      · have hcmn : mapGet H1.childrenMap p = none := by
          cases hg : mapGet H1.childrenMap p
          · rfl
          · rw [hg] at hcm; simp at hcm
        rw [mapSet_eq_append _ _ _ hcmn] at he
        rcases List.mem_append.mp he with he | he
        · exact hw1.mirror e he x hx
        · simp at he
          subst he
          simp at hx
    obtain ⟨nd, hnd, hpar⟩ := hmirror1
    exact ⟨nd, mapGet_append_left _ _ _ _ hnd, hpar⟩
  refine ⟨?_, ?_, ?_, ?_, ?_, ?_, ?_⟩
  · simpa only [happ] using hN1
  · simpa only [happ] using hN2
  · simpa only [happ] using hN3
  · intro e he
    obtain ⟨e0, he0, hkey, _⟩ := mem_mapUpdate _ _ _ e he
    show (mapGet (mapSet H1.nodes c (mkChildNode c p o t)) e.1).isSome = true
    rw [happ, hkey]
    exact hcm1Sub e0 he0
  · intro e he
    obtain ⟨e0, he0, _, hcases⟩ := mem_mapUpdate _ _ _ e he
    rcases hcases with rfl | ⟨_, rfl⟩
    · exact hcm1Sets e he0
    · exact setAdd_nodup _ _ (hcm1Sets e0 he0)
  · intro e he x hx
    obtain ⟨e0, he0, hkey, hcases⟩ := mem_mapUpdate _ _ _ e he
    rcases hcases with rfl | ⟨hkp, rfl⟩
    · obtain ⟨nd, hnd, hpar⟩ := hcm1Mirror e he0 x hx
      refine ⟨nd, ?_, hpar⟩
      show mapGet (mapSet H1.nodes c (mkChildNode c p o t)) x = some nd
      rw [happ]
      exact hnd
    · simp only at hx
      rcases mem_setAdd _ _ _ hx with hx2 | hxc
      · obtain ⟨nd, hnd, hpar⟩ := hcm1Mirror e0 he0 x hx2
        refine ⟨nd, ?_, hpar⟩
        show mapGet (mapSet H1.nodes c (mkChildNode c p o t)) x = some nd
        rw [happ]
        exact hnd
      · refine ⟨mkChildNode c p o t, ?_, ?_⟩
        · show mapGet (mapSet H1.nodes c (mkChildNode c p o t)) x
            = some (mkChildNode c p o t)
          rw [happ, hxc]
          exact hcN2
        · simp [mkChildNode, hkp]
  · simpa only [happ] using hN4

theorem hierWF_runB : ∀ (ops : List BOp) (h : AgentHierarchy),
    HierWF h → freshOkB h ops = true → HierWF (runB h ops) := by
  intro ops
  induction ops with
  | nil => intro h hw _; exact hw
  | cons op rest ih =>
    intro h hw hok
    cases op with
    | root sid t =>
      rw [runB]
      rw [freshOkB] at hok
      exact ih _ (hierWF_addRoot h sid t hw) hok
    | child p c o t =>
      rw [runB]
      rw [freshOkB] at hok
      simp only [Bool.and_eq_true, decide_eq_true_eq,
        Option.isNone_iff_eq_none] at hok
      exact ih _ (hierWF_addChild h p c o t hw hok.1.1 hok.1.2) hok.2

/-- Claim C1 (amended): for every sequence of addRoot/addChild calls in
which each addChild supplies a child id that is not yet present and is
distinct from the parent id, the parent/child graph is a forest: for every
present session id x, getAncestors(x) terminates, never contains the node
for x itself, and getDepth(x) equals the length of getAncestors(x). -/
theorem hierarchy_forest_of_fresh_build (ops : List BOp)
    (hok : freshOkB AgentHierarchy.empty ops = true) (x : String)
    (hx : (mapGet (runB AgentHierarchy.empty ops).nodes x).isSome = true) :
    ∃ l, (runB AgentHierarchy.empty ops).getAncestors x = some l ∧
      x ∉ l.map (fun a => a.sessionId) ∧
      (runB AgentHierarchy.empty ops).getDepth x = some l.length := by
  have hw := hierWF_runB ops AgentHierarchy.empty hierWF_empty hok
  obtain ⟨rank, hrk⟩ := hw.ranked
  obtain ⟨l, hl, hnmem, _⟩ := getAncestors_forest _ rank hw.stored hrk x
  refine ⟨l, hl, hnmem, ?_⟩
  rw [AgentHierarchy.getDepth, hl]
  rfl

def wOpts : ChildOptions := { toolUseId := "t", description := none
                            , subagentType := none }

def wOps : List BOp := [BOp.root "r" 0, BOp.child "r" "c" wOpts 1]

theorem hierarchy_forest_of_fresh_build_wit :
    ∃ l, (runB AgentHierarchy.empty wOps).getAncestors "c" = some l ∧
      "c" ∉ l.map (fun a => a.sessionId) ∧
      (runB AgentHierarchy.empty wOps).getDepth "c" = some l.length :=
  hierarchy_forest_of_fresh_build wOps (by rfl) "c" (by rfl)

/-! ## The re-parenting cycle -/

def cycOps : List BOp := [BOp.child "a" "b" wOpts 0, BOp.child "b" "a" wOpts 1]

def hCyc : AgentHierarchy := runB AgentHierarchy.empty cycOps

def nodeACyc : AgentNode :=
  { sessionId := "a", parentId := some "b", toolUseId := some "t"
  , description := none, subagentType := none, spawnedAt := 1
  , completedAt := none }

def nodeBCyc : AgentNode :=
  { sessionId := "b", parentId := some "a", toolUseId := some "t"
  , description := none, subagentType := none, spawnedAt := 0
  , completedAt := none }

theorem hCyc_nodes : hCyc.nodes = [("a", nodeACyc), ("b", nodeBCyc)] := rfl

/-- The source getAncestors loop never returns on this state, at any fuel. -/
def ancDiverges (h : AgentHierarchy) (x : String) : Prop :=
  ∀ fuel, ancWalk h.nodes (mapGet h.nodes x) fuel = none

theorem hCyc_ancWalk_none : ∀ fuel,
    ancWalk hCyc.nodes (some nodeACyc) fuel = none ∧
    ancWalk hCyc.nodes (some nodeBCyc) fuel = none := by
  intro fuel
  induction fuel with
  | zero => exact ⟨rfl, rfl⟩
  | succ f ih =>
    constructor
    · rw [ancWalk]
      simp only [show nodeACyc.parentId = some "b" from rfl,
        show mapGet hCyc.nodes "b" = some nodeBCyc from rfl, ih.2]
      rfl
    · rw [ancWalk]
      simp only [show nodeBCyc.parentId = some "a" from rfl,
        show mapGet hCyc.nodes "a" = some nodeACyc from rfl, ih.1]
      rfl

/-- Claim C1 counterexample: addChild("a","b") then addChild("b","a") is a
valid addRoot/addChild sequence; afterwards "a" is present but its parent
is "b" and "b"'s parent is "a" (a cycle, not a forest), and both
getAncestors("a") and getDepth("a") diverge (no fuel suffices). -/
theorem hierarchy_forest_cex :
    runB AgentHierarchy.empty cycOps = hCyc ∧
    (mapGet hCyc.nodes "a").isSome = true ∧
    mapGet hCyc.nodes "a" = some nodeACyc ∧
    nodeACyc.parentId = some "b" ∧
    mapGet hCyc.nodes "b" = some nodeBCyc ∧
    nodeBCyc.parentId = some "a" ∧
    hCyc.getAncestors "a" = none ∧
    hCyc.getDepth "a" = none ∧
    ancDiverges hCyc "a" := by
  refine ⟨rfl, rfl, rfl, rfl, rfl, rfl, ?_, ?_, ?_⟩
  · rw [AgentHierarchy.getAncestors,
      show mapGet hCyc.nodes "a" = some nodeACyc from rfl]
    exact (hCyc_ancWalk_none _).1
  · rw [AgentHierarchy.getDepth, AgentHierarchy.getAncestors,
      show mapGet hCyc.nodes "a" = some nodeACyc from rfl,
      (hCyc_ancWalk_none _).1]
    rfl
  · intro fuel
    rw [show mapGet hCyc.nodes "a" = some nodeACyc from rfl]
    exact (hCyc_ancWalk_none fuel).1

/-- Claim C7 (amended): on every state whose parent pointers admit a
bounded rank (in particular every state built without re-parenting),
getAncestors terminates for every session id, returns the ancestors
nearest-first (parent at the head, then the parent's ancestors), excludes
the starting node, and a parentId referring to a missing node stops the
walk returning the ancestors collected so far, without error. -/
theorem getAncestors_total_props (h : AgentHierarchy) (rank : String → ℕ)
    (hs : StoredKey h.nodes) (hrk : RankedBy h.nodes rank) (x : String) :
    (∃ l, h.getAncestors x = some l ∧ x ∉ l.map (fun a => a.sessionId)) ∧
    (∀ n p pn, mapGet h.nodes x = some n → n.parentId = some p →
      mapGet h.nodes p = some pn →
      ∃ l', h.getAncestors p = some l' ∧ h.getAncestors x = some (pn :: l')) ∧
    (∀ n p, mapGet h.nodes x = some n → n.parentId = some p →
      mapGet h.nodes p = none → h.getAncestors x = some []) := by
  obtain ⟨l, hl, hnmem, _⟩ := getAncestors_forest h rank hs hrk x
  refine ⟨⟨l, hl, hnmem⟩, ?_, ?_⟩
  · intro n p pn hn hp hpp
    have hx : h.getAncestors x
        = ancWalk h.nodes (some n) (h.nodes.length + 1) := by
      rw [AgentHierarchy.getAncestors, hn]
    rw [hx] at hl
    rw [ancWalk] at hl
    simp only [hp, hpp] at hl
    obtain ⟨l', hl', rfl⟩ := Option.map_eq_some'.mp hl
    refine ⟨l', ?_, by rw [hx, ancWalk]; simp only [hp, hpp, hl']; rfl⟩
    rw [AgentHierarchy.getAncestors, hpp]
    exact ancWalk_mono h.nodes _ _ _ _ (by omega) hl'
  · intro n p hn hp hpp
    rw [AgentHierarchy.getAncestors, hn, ancWalk]
    simp [hp, hpp]

theorem wOps_state : runB AgentHierarchy.empty wOps =
    ⟨[("r", mkRootNode "r" 0), ("c", mkChildNode "c" "r" wOpts 1)],
     [("r", ["c"])]⟩ := rfl

theorem wOps_storedKey : StoredKey (runB AgentHierarchy.empty wOps).nodes := by
  intro e he
  rw [wOps_state] at he
  rcases List.mem_cons.mp he with rfl | he
  · rfl
  · rcases List.mem_cons.mp he with rfl | he
    · rfl
    · simp at he

theorem wOps_ranked : RankedBy (runB AgentHierarchy.empty wOps).nodes
    (fun k => if k = "r" then 0 else 1) := by
  constructor
  · intro k n p pn hk hp hpp
    rw [wOps_state] at hk
    simp only [mapGet] at hk
    by_cases hr : k = "r"
    · subst hr
      rw [if_pos rfl] at hk
      injection hk with hk
      rw [← hk] at hp
      simp [mkRootNode] at hp
    · rw [if_neg (fun he => hr he.symm)] at hk
      by_cases hc : k = "c"
      · subst hc
        rw [if_pos rfl] at hk
        injection hk with hk
        rw [← hk] at hp
        simp only [mkChildNode, Option.some.injEq] at hp
        subst hp
        decide
      · rw [if_neg (fun he => hc he.symm)] at hk
        simp [mapGet] at hk
  · intro k n hk
    rw [wOps_state] at hk
    simp only [mapGet] at hk
    rw [wOps_state]
    by_cases hr : k = "r"
    · subst hr
      decide
    · by_cases hc : k = "c"
      · subst hc
        decide
      · rw [if_neg (fun he => hr he.symm),
          if_neg (fun he => hc he.symm)] at hk
        simp [mapGet] at hk

theorem getAncestors_total_props_wit :
    (∃ l, (runB AgentHierarchy.empty wOps).getAncestors "c" = some l ∧
      "c" ∉ l.map (fun a => a.sessionId)) ∧
    (∀ n p pn, mapGet (runB AgentHierarchy.empty wOps).nodes "c" = some n →
      n.parentId = some p →
      mapGet (runB AgentHierarchy.empty wOps).nodes p = some pn →
      ∃ l', (runB AgentHierarchy.empty wOps).getAncestors p = some l' ∧
        (runB AgentHierarchy.empty wOps).getAncestors "c" = some (pn :: l')) ∧
    (∀ n p, mapGet (runB AgentHierarchy.empty wOps).nodes "c" = some n →
      n.parentId = some p →
      mapGet (runB AgentHierarchy.empty wOps).nodes p = none →
      (runB AgentHierarchy.empty wOps).getAncestors "c" = some []) :=
  getAncestors_total_props (runB AgentHierarchy.empty wOps)
    (fun k => if k = "r" then 0 else 1) wOps_storedKey wOps_ranked "c"

/-- Claim C7 counterexample: the state reached by addChild("a","b"),
addChild("b","a") is reachable, yet getAncestors diverges on both "a" and
"b": the source while loop never terminates there. -/
theorem getAncestors_diverges_cex :
    runB AgentHierarchy.empty cycOps = hCyc ∧
    hCyc.getAncestors "a" = none ∧
    hCyc.getAncestors "b" = none ∧
    ancDiverges hCyc "a" ∧
    ancDiverges hCyc "b" := by
  refine ⟨rfl, ?_, ?_, ?_, ?_⟩
  · rw [AgentHierarchy.getAncestors,
      show mapGet hCyc.nodes "a" = some nodeACyc from rfl]
    exact (hCyc_ancWalk_none _).1
  · rw [AgentHierarchy.getAncestors,
      show mapGet hCyc.nodes "b" = some nodeBCyc from rfl]
    exact (hCyc_ancWalk_none _).2
  · intro fuel
    rw [show mapGet hCyc.nodes "a" = some nodeACyc from rfl]
    exact (hCyc_ancWalk_none fuel).1
  · intro fuel
    rw [show mapGet hCyc.nodes "b" = some nodeBCyc from rfl]
    exact (hCyc_ancWalk_none fuel).2

/-! ## Termination of getDescendants on well-formed states -/

theorem nodup_subset_length_le (l l' : List String) (hn : l.Nodup)
    (hsub : ∀ x ∈ l, x ∈ l') : l.length ≤ l'.length := by
  calc l.length = l.toFinset.card := (List.toFinset_card_of_nodup hn).symm
    _ ≤ l'.toFinset.card := Finset.card_le_card
        (fun x hx => List.mem_toFinset.mpr (hsub x (List.mem_toFinset.mp hx)))
    _ ≤ l'.length := l'.toFinset_card_le

theorem getChildren_mem (h : AgentHierarchy) (sid : String) (a : AgentNode)
    (ha : a ∈ h.getChildren sid) :
    ∃ s, mapGet h.childrenMap sid = some s ∧
      ∃ id ∈ s, mapGet h.nodes id = some a := by
  unfold AgentHierarchy.getChildren at ha
  cases hcm : mapGet h.childrenMap sid with
  | none =>
    rw [mapGetD, hcm] at ha
    simp at ha
  | some s =>
    rw [mapGetD, hcm] at ha
    simp only [Option.getD_some] at ha
    obtain ⟨id, hid, hida⟩ := List.mem_filterMap.mp ha
    exact ⟨s, rfl, id, hid, hida⟩

theorem getChildren_props (h : AgentHierarchy) (hw : HierWF h) (sid : String)
    (a : AgentNode) (ha : a ∈ h.getChildren sid) :
    mapGet h.nodes a.sessionId = some a ∧ a.parentId = some sid ∧
    (mapGet h.nodes sid).isSome = true := by
  obtain ⟨s, hcm, id, hid, hida⟩ := getChildren_mem h sid a ha
  have hmem := mem_of_mapGet_eq_some _ _ _ hcm
  have hkey : a.sessionId = id := hw.stored _ (mem_of_mapGet_eq_some _ _ _ hida)
  obtain ⟨nd, hnd, hpar⟩ := hw.mirror (sid, s) hmem id hid
  have hna : nd = a := mapGet_inj _ _ _ _ hnd hida
  subst hna
  refine ⟨by rw [hkey]; exact hida, hpar, hw.cmSub (sid, s) hmem⟩

theorem filterMap_mapGet_keys (nodes : List (String × AgentNode))
    (hst : StoredKey nodes) (s : List String) :
    (s.filterMap (fun id => mapGet nodes id)).map (fun a => a.sessionId)
      = s.filter (fun id => (mapGet nodes id).isSome) := by
  induction s with
  | nil => rfl
  | cons id rest ih =>
    cases hid : mapGet nodes id with
    | none => simp [List.filterMap_cons, hid, List.filter_cons, ih]
    | some a =>
      have hkey : a.sessionId = id := hst _ (mem_of_mapGet_eq_some _ _ _ hid)
      simp [List.filterMap_cons, hid, List.filter_cons, ih, hkey]

theorem getChildren_keys_nodup (h : AgentHierarchy) (hw : HierWF h)
    (sid : String) :
    ((h.getChildren sid).map (fun a => a.sessionId)).Nodup := by
  unfold AgentHierarchy.getChildren
  cases hcm : mapGet h.childrenMap sid with
  | none =>
    rw [mapGetD, hcm]
    simp
  | some s =>
    rw [mapGetD, hcm]
    simp only [Option.getD_some]
    rw [filterMap_mapGet_keys h.nodes hw.stored s]
    exact List.Nodup.filter _
      (hw.setsNodup (sid, s) (mem_of_mapGet_eq_some _ _ _ hcm))

theorem descWalk_terminates (h : AgentHierarchy) (hw : HierWF h)
    (rank : String → ℕ)
    (hr : ∀ k n p pn, mapGet h.nodes k = some n → n.parentId = some p →
      mapGet h.nodes p = some pn → rank p < rank k)
    (o : String) :
    ∀ (fuel : ℕ) (acc queue : List AgentNode),
      (acc.map (fun a => a.sessionId)).Nodup →
      (queue.map (fun a => a.sessionId)).Nodup →
      (∀ x, x ∈ acc.map (fun a => a.sessionId) →
        x ∈ queue.map (fun a => a.sessionId) → False) →
      (∀ a ∈ acc ++ queue, mapGet h.nodes a.sessionId = some a) →
      (∀ a ∈ acc ++ queue, ∃ p, a.parentId = some p ∧
        (p ∈ acc.map (fun x => x.sessionId) ∨ p = o)) →
      (∀ a ∈ acc ++ queue, rank o < rank a.sessionId) →
      h.nodes.length < fuel + acc.length →
      ∃ res, descWalk h queue acc fuel = some res := by
  intro fuel
  induction fuel with
  | zero =>
    intro acc queue hAn _ _ hstored _ _ hcount
    cases queue with
    | nil => exact ⟨acc.reverse, rfl⟩
    | cons k rest =>
      exfalso
      have hsub : ∀ x ∈ acc.map (fun a => a.sessionId), x ∈ mapKeys h.nodes := by
        intro x hx
        obtain ⟨a, ha, rfl⟩ := List.mem_map.mp hx
        exact mem_keys_of_mapGet_eq_some _ _ _
          (hstored a (List.mem_append.mpr (Or.inl ha)))
      have hlen := nodup_subset_length_le _ _ hAn hsub
      rw [List.length_map] at hlen
      rw [show (mapKeys h.nodes).length = h.nodes.length by
        rw [mapKeys, List.length_map]] at hlen
      omega
  | succ f ih =>
    intro acc queue hAn hQn hdisj hstored hparent hrank hcount
    cases queue with
    | nil => exact ⟨acc.reverse, rfl⟩
    | cons k rest =>
      rw [descWalk]
      have hkmem : k ∈ acc ++ k :: rest :=
        List.mem_append.mpr (Or.inr (List.mem_cons_self _ _))
      have hkStored := hstored k hkmem
      have hkRank := hrank k hkmem
      have hkKeyQ : k.sessionId ∈ (k :: rest).map (fun a => a.sessionId) := by
        simp
      -- facts about the children of k
      have hCprops : ∀ c ∈ h.getChildren k.sessionId,
          mapGet h.nodes c.sessionId = some c ∧
          c.parentId = some k.sessionId := by
        intro c hc
        obtain ⟨h1, h2, _⟩ := getChildren_props h hw _ c hc
        exact ⟨h1, h2⟩
      have hCrank : ∀ c ∈ h.getChildren k.sessionId,
          rank o < rank c.sessionId := by
        intro c hc
        obtain ⟨h1, h2⟩ := hCprops c hc
        have := hr c.sessionId c k.sessionId k h1 h2 hkStored
        omega
      have hno_self : ∀ c ∈ h.getChildren k.sessionId,
          c.sessionId ≠ k.sessionId := by
        intro c hc heq
        obtain ⟨hcs, hcp⟩ := hCprops c hc
        rw [heq] at hcs
        have hck : c = k := mapGet_inj _ _ _ _ hcs hkStored
        subst hck
        rw [← heq] at hcp
        have := hr c.sessionId c c.sessionId c hcs hcp hcs
        omega
      have hnot_old : ∀ c ∈ h.getChildren k.sessionId,
          ∀ a ∈ acc ++ k :: rest, a.sessionId = c.sessionId → False := by
        intro c hc a ha heq
        obtain ⟨hcs, hcp⟩ := hCprops c hc
        have has := hstored a ha
        rw [heq] at has
        have hac : a = c := mapGet_inj _ _ _ _ has hcs
        obtain ⟨p, hap, hcase⟩ := hparent a ha
        have hpk : p = k.sessionId := by
          rw [hac, hcp] at hap
          injection hap with hap
          exact hap.symm
        subst hpk
        rcases hcase with hmemacc | ho
        · exact hdisj k.sessionId hmemacc hkKeyQ
        · rw [ho] at hkRank
          omega
      -- membership versions of freshness
      have hfreshA : ∀ c ∈ h.getChildren k.sessionId,
          c.sessionId ∉ acc.map (fun a => a.sessionId) := by
        intro c hc hmem
        obtain ⟨a, ha, hkey⟩ := List.mem_map.mp hmem
        exact hnot_old c hc a (List.mem_append.mpr (Or.inl ha)) hkey
      have hfreshR : ∀ c ∈ h.getChildren k.sessionId,
          c.sessionId ∉ rest.map (fun a => a.sessionId) := by
        intro c hc hmem
        obtain ⟨a, ha, hkey⟩ := List.mem_map.mp hmem
        exact hnot_old c hc a
          (List.mem_append.mpr (Or.inr (List.mem_cons_of_mem _ ha))) hkey
      have hQn' : (rest.map (fun a => a.sessionId)).Nodup ∧
          k.sessionId ∉ rest.map (fun a => a.sessionId) := by
        rw [List.map_cons, List.nodup_cons] at hQn
        exact ⟨hQn.2, hQn.1⟩
      -- apply the induction hypothesis
      apply ih (k :: acc) (rest ++ h.getChildren k.sessionId)
      · rw [List.map_cons, List.nodup_cons]
        refine ⟨fun hmem => hdisj k.sessionId hmem hkKeyQ, hAn⟩
      · rw [List.map_append, List.nodup_append]
        refine ⟨hQn'.1, getChildren_keys_nodup h hw _, ?_⟩
        intro x hx hx2
        obtain ⟨c, hc, hkey⟩ := List.mem_map.mp hx2
        rw [← hkey] at hx
        exact hfreshR c hc hx
      · intro x hx hx2
        rw [List.map_cons, List.mem_cons] at hx
        rw [List.map_append, List.mem_append] at hx2
        rcases hx with rfl | hx
        · rcases hx2 with hx2 | hx2
          · exact hQn'.2 hx2
          · obtain ⟨c, hc, hkey⟩ := List.mem_map.mp hx2
            exact hno_self c hc hkey
        · rcases hx2 with hx2 | hx2
          · exact hdisj x hx
              (by rw [List.map_cons]; exact List.mem_cons_of_mem _ hx2)
          · obtain ⟨c, hc, hkey⟩ := List.mem_map.mp hx2
            rw [← hkey] at hx
            exact hfreshA c hc hx
      · intro a ha
        rcases List.mem_append.mp ha with ha | ha
        · rcases List.mem_cons.mp ha with rfl | ha
          · exact hkStored
          · exact hstored a (List.mem_append.mpr (Or.inl ha))
        · rcases List.mem_append.mp ha with ha | ha
          · exact hstored a
              (List.mem_append.mpr (Or.inr (List.mem_cons_of_mem _ ha)))
          · exact (hCprops a ha).1
      · intro a ha
        rcases List.mem_append.mp ha with ha | ha
        · rcases List.mem_cons.mp ha with rfl | ha
          · obtain ⟨p, hap, hcase⟩ := hparent a hkmem
            refine ⟨p, hap, ?_⟩
            rcases hcase with hc | hc
            · exact Or.inl (by rw [List.map_cons]; exact List.mem_cons_of_mem _ hc)
            · exact Or.inr hc
          · obtain ⟨p, hap, hcase⟩ :=
              hparent a (List.mem_append.mpr (Or.inl ha))
            refine ⟨p, hap, ?_⟩
            rcases hcase with hc | hc
            · exact Or.inl (by rw [List.map_cons]; exact List.mem_cons_of_mem _ hc)
            · exact Or.inr hc
        · rcases List.mem_append.mp ha with ha | ha
          · obtain ⟨p, hap, hcase⟩ := hparent a
              (List.mem_append.mpr (Or.inr (List.mem_cons_of_mem _ ha)))
            refine ⟨p, hap, ?_⟩
            rcases hcase with hc | hc
            · exact Or.inl (by rw [List.map_cons]; exact List.mem_cons_of_mem _ hc)
            · exact Or.inr hc
          · obtain ⟨_, hcp⟩ := hCprops a ha
            exact ⟨k.sessionId, hcp, Or.inl (by rw [List.map_cons]; simp)⟩
      · intro a ha
        rcases List.mem_append.mp ha with ha | ha
        · rcases List.mem_cons.mp ha with rfl | ha
          · exact hkRank
          · exact hrank a (List.mem_append.mpr (Or.inl ha))
        · rcases List.mem_append.mp ha with ha | ha
          · exact hrank a
              (List.mem_append.mpr (Or.inr (List.mem_cons_of_mem _ ha)))
          · exact hCrank a ha
      · simp only [List.length_cons]
        omega

/-- On every well-formed state, the getDescendants BFS terminates. -/
theorem getDescendants_some (h : AgentHierarchy) (hw : HierWF h)
    (o : String) : ∃ res, h.getDescendants o = some res := by
  obtain ⟨rank, hrk⟩ := hw.ranked
  have hCo : ∀ a ∈ h.getChildren o,
      mapGet h.nodes a.sessionId = some a ∧ a.parentId = some o ∧
      (mapGet h.nodes o).isSome = true :=
    fun a ha => getChildren_props h hw o a ha
  apply descWalk_terminates h hw rank hrk.1 o (h.nodes.length + 1) []
    (h.getChildren o)
  · simp
  · exact getChildren_keys_nodup h hw o
  · intro x hx
    simp at hx
  · intro a ha
    rcases List.mem_append.mp ha with ha | ha
    · simp at ha
    · exact (hCo a ha).1
  · intro a ha
    rcases List.mem_append.mp ha with ha | ha
    · simp at ha
    · exact ⟨o, (hCo a ha).2.1, Or.inr rfl⟩
  · intro a ha
    rcases List.mem_append.mp ha with ha | ha
    · simp at ha
    · obtain ⟨h1, h2, h3⟩ := hCo a ha
      obtain ⟨onode, hon⟩ := Option.isSome_iff_exists.mp h3
      have := hrk.1 a.sessionId a o onode h1 h2 hon
      omega
  · simp only [List.length_nil]
    omega

/-! ## remove: postconditions -/

theorem removeChildrenStep_nodes (h : AgentHierarchy) (sid : String) :
    (removeChildrenStep h sid).nodes = h.nodes := by
  unfold removeChildrenStep
  cases mapGet h.nodes sid with
  | none => rfl
  | some node =>
    cases hp : node.parentId with
    | none => simp [hp]
    | some pid => simp [hp]

theorem mapGet_mapDel_of_none {α : Type} (m : List (String × α))
    (x k : String) (h : mapGet m k = none) :
    mapGet (mapDel m x) k = none := by
  by_cases hxk : x = k
  · rw [hxk]
    exact mapGet_mapDel_self m k
  · rw [mapGet_mapDel_ne m x k hxk]
    exact h

theorem delFold_nodes_none (ds : List AgentNode) :
    ∀ (acc : AgentHierarchy) (k : String), mapGet acc.nodes k = none →
      mapGet (ds.foldl delNode acc).nodes k = none := by
  induction ds with
  | nil => intro acc k hk; exact hk
  | cons d rest ih =>
    intro acc k hk
    rw [List.foldl_cons]
    exact ih _ k (mapGet_mapDel_of_none _ _ _ hk)

theorem delFold_nodes_mem (ds : List AgentNode) :
    ∀ (acc : AgentHierarchy) (d0 : AgentNode), d0 ∈ ds →
      mapGet (ds.foldl delNode acc).nodes d0.sessionId = none := by
  induction ds with
  | nil => intro acc d0 hmem; simp at hmem
  | cons d rest ih =>
    intro acc d0 hmem
    rw [List.foldl_cons]
    rcases List.mem_cons.mp hmem with rfl | hmem
    · exact delFold_nodes_none rest _ _ (mapGet_mapDel_self _ _)
    · exact ih _ d0 hmem

theorem delFold_nodes_not_mem (ds : List AgentNode) :
    ∀ (acc : AgentHierarchy) (k : String), (∀ d ∈ ds, d.sessionId ≠ k) →
      mapGet (ds.foldl delNode acc).nodes k = mapGet acc.nodes k := by
  induction ds with
  | nil => intro acc k _; rfl
  | cons d rest ih =>
    intro acc k hne
    rw [List.foldl_cons]
    rw [ih _ k (fun d' hd' => hne d' (List.mem_cons_of_mem _ hd'))]
    exact mapGet_mapDel_ne _ _ _ (hne d (List.mem_cons_self _ _))

theorem delFold_nodes_subset (ds : List AgentNode) :
    ∀ (acc : AgentHierarchy) (e : String × AgentNode),
      e ∈ (ds.foldl delNode acc).nodes → e ∈ acc.nodes := by
  induction ds with
  | nil => intro acc e he; exact he
  | cons d rest ih =>
    intro acc e he
    rw [List.foldl_cons] at he
    exact (mem_of_mem_mapDel _ _ _ (ih _ e he)).1

theorem not_mem_getChildren_keys (g : AgentHierarchy)
    (hst : StoredKey g.nodes) (x p : String)
    (hx : mapGet g.nodes x = none) :
    x ∉ (g.getChildren p).map (fun a => a.sessionId) := by
  intro hmem
  unfold AgentHierarchy.getChildren at hmem
  cases hcm : mapGet g.childrenMap p with
  | none =>
    rw [mapGetD, hcm] at hmem
    simp at hmem
  | some s =>
    rw [mapGetD, hcm] at hmem
    simp only [Option.getD_some] at hmem
    rw [filterMap_mapGet_keys g.nodes hst s] at hmem
    have hsome := (List.mem_filter.mp hmem).2
    rw [hx] at hsome
    cases hsome

/-- Claim C3 (amended): on every well-formed tracker state (in particular
any state built by addRoot/addChild without re-parenting), remove(n)
terminates; afterwards has(n) is false, has(d) is false for every session
in the descendant list computed before mutation, n is no longer contained
in getChildren of its former parent, every node that was neither n nor one
of those descendants is unchanged, and remove of an unknown id returns the
state unchanged and raises no error. -/
theorem remove_props (h : AgentHierarchy) (n : String) (hw : HierWF h) :
    ∃ descs h', h.getDescendants n = some descs ∧ h.remove n = some h' ∧
      h'.has n = false ∧
      (∀ d ∈ descs, h'.has d.sessionId = false) ∧
      (∀ nd p, mapGet h.nodes n = some nd → nd.parentId = some p →
        n ∉ (h'.getChildren p).map (fun a => a.sessionId)) ∧
      (∀ k, k ≠ n → (∀ d ∈ descs, d.sessionId ≠ k) →
        h'.getNode k = h.getNode k) ∧
      (mapGet h.nodes n = none → h' = h) := by
  obtain ⟨descs, hdescs⟩ := getDescendants_some h hw n
  refine ⟨descs,
    ⟨mapDel (removeChildrenStep (descs.foldl delNode h) n).nodes n,
     mapDel (removeChildrenStep (descs.foldl delNode h) n).childrenMap n⟩,
    hdescs, ?_, ?_, ?_, ?_, ?_, ?_⟩
  · rw [AgentHierarchy.remove, hdescs]
  · show (mapGet (mapDel
      (removeChildrenStep (descs.foldl delNode h) n).nodes n) n).isSome = false
    rw [mapGet_mapDel_self]
    rfl
  · intro d hd
    show (mapGet (mapDel
      (removeChildrenStep (descs.foldl delNode h) n).nodes n)
        d.sessionId).isSome = false
    have h1 : mapGet (removeChildrenStep (descs.foldl delNode h) n).nodes
        d.sessionId = none := by
      rw [removeChildrenStep_nodes]
      exact delFold_nodes_mem descs h d hd
    rw [mapGet_mapDel_of_none _ _ _ h1]
    rfl
  · intro nd p _ _
    have hstored2 : StoredKey (mapDel
        (removeChildrenStep (descs.foldl delNode h) n).nodes n) := by
      intro e he
      have he1 := (mem_of_mem_mapDel _ _ _ he).1
      rw [removeChildrenStep_nodes] at he1
      exact hw.stored e (delFold_nodes_subset descs h e he1)
    have hnone : mapGet (mapDel
        (removeChildrenStep (descs.foldl delNode h) n).nodes n) n = none :=
      mapGet_mapDel_self _ _
    exact not_mem_getChildren_keys _ hstored2 n p hnone
  · intro k hk hdk
    show mapGet (mapDel
      (removeChildrenStep (descs.foldl delNode h) n).nodes n) k
        = mapGet h.nodes k
    rw [mapGet_mapDel_ne _ _ _ (fun he => hk he.symm)]
    rw [removeChildrenStep_nodes]
    exact delFold_nodes_not_mem descs h k hdk
  · intro hn
    have hchild : h.getChildren n = [] := by
      unfold AgentHierarchy.getChildren
      cases hcm : mapGet h.childrenMap n with
      | none => rw [mapGetD, hcm]; rfl
      | some s =>
        exfalso
        have hsub := hw.cmSub (n, s) (mem_of_mapGet_eq_some _ _ _ hcm)
        rw [hn] at hsub
        cases hsub
    have hdesc0 : h.getDescendants n = some [] := by
      rw [AgentHierarchy.getDescendants, hchild]
      rfl
    rw [hdescs] at hdesc0
    injection hdesc0 with hdesc0
    subst hdesc0
    have hrs : removeChildrenStep h n = h := by
      unfold removeChildrenStep
      rw [hn]
    show (⟨mapDel (removeChildrenStep (List.foldl delNode h []) n).nodes n,
      mapDel (removeChildrenStep (List.foldl delNode h []) n).childrenMap n⟩ :
        AgentHierarchy) = h
    rw [show List.foldl delNode h [] = h from rfl, hrs]
    have hnk : n ∉ mapKeys h.nodes := not_mem_keys_of_mapGet_none _ _ hn
    have hck : n ∉ mapKeys h.childrenMap := by
      intro hmem
      obtain ⟨s, hs⟩ := Option.isSome_iff_exists.mp
        (mapGet_isSome_of_mem_keys _ _ hmem)
      have hsub := hw.cmSub (n, s) (mem_of_mapGet_eq_some _ _ _ hs)
      rw [hn] at hsub
      cases hsub
    rw [mapDel_eq_self_of_not_mem _ _ hnk, mapDel_eq_self_of_not_mem _ _ hck]

theorem remove_props_wit :
    ∃ descs h',
      (runB AgentHierarchy.empty wOps).getDescendants "c" = some descs ∧
      (runB AgentHierarchy.empty wOps).remove "c" = some h' ∧
      h'.has "c" = false ∧
      (∀ d ∈ descs, h'.has d.sessionId = false) ∧
      (∀ nd p, mapGet (runB AgentHierarchy.empty wOps).nodes "c" = some nd →
        nd.parentId = some p →
        "c" ∉ (h'.getChildren p).map (fun a => a.sessionId)) ∧
      (∀ k, k ≠ "c" → (∀ d ∈ descs, d.sessionId ≠ k) →
        h'.getNode k = (runB AgentHierarchy.empty wOps).getNode k) ∧
      (mapGet (runB AgentHierarchy.empty wOps).nodes "c" = none →
        h' = runB AgentHierarchy.empty wOps) :=
  remove_props (runB AgentHierarchy.empty wOps) "c"
    (hierWF_runB wOps AgentHierarchy.empty hierWF_empty (by rfl))

/-- The source getDescendants BFS never returns on this state, at any fuel. -/
def descDiverges (h : AgentHierarchy) (x : String) : Prop :=
  ∀ fuel acc, descWalk h (h.getChildren x) acc fuel = none

theorem hCyc_descWalk_none : ∀ (fuel : ℕ) (acc : List AgentNode),
    descWalk hCyc [nodeBCyc] acc fuel = none ∧
    descWalk hCyc [nodeACyc] acc fuel = none := by
  intro fuel
  induction fuel with
  | zero => intro acc; exact ⟨rfl, rfl⟩
  | succ f ih =>
    intro acc
    constructor
    · rw [descWalk]
      rw [show ([] ++ hCyc.getChildren nodeBCyc.sessionId : List AgentNode)
        = [nodeACyc] from rfl]
      exact (ih _).2
    · rw [descWalk]
      rw [show ([] ++ hCyc.getChildren nodeACyc.sessionId : List AgentNode)
        = [nodeBCyc] from rfl]
      exact (ih _).1

/-- Claim C3 counterexample: on the reachable re-parented state (cycle
a<->b), remove("a") diverges: its getDescendants BFS never terminates at
any fuel, so none of the removal postconditions can be reached. -/
theorem remove_diverges_cex :
    runB AgentHierarchy.empty cycOps = hCyc ∧
    hCyc.getDescendants "a" = none ∧
    hCyc.remove "a" = none ∧
    descDiverges hCyc "a" := by
  have hd : hCyc.getDescendants "a" = none := by
    rw [AgentHierarchy.getDescendants,
      show hCyc.getChildren "a" = [nodeBCyc] from rfl]
    exact (hCyc_descWalk_none _ _).1
  refine ⟨rfl, hd, ?_, ?_⟩
  · rw [AgentHierarchy.remove, hd]
  · intro fuel acc
    rw [show hCyc.getChildren "a" = [nodeBCyc] from rfl]
    exact (hCyc_descWalk_none fuel acc).1

/-! ## TmuxDiscovery (src/server/TmuxDiscovery.ts) -/

structure PaneInfo where
  pid : ℤ
  cwd : String
  command : String
deriving DecidableEq

structure DiscoveredSession where
  tmuxSession : String
  command : String
  cwd : String
  pid : ℤ
  discoveredAt : ℚ
deriving DecidableEq

/-- JS whitespace, as recognized by trim and parseInt. -/
def isJsWs (c : Char) : Bool :=
  c = ' ' || c = '\t' || c = '\n' || c = '\r'

/-- JS `String.prototype.trim`: strip whitespace from both ends. -/
def jsTrim (cs : List Char) : List Char :=
  ((cs.dropWhile (fun c => isJsWs c)).reverse.dropWhile
    (fun c => isJsWs c)).reverse

/-- JS `String.prototype.split` with a one-character separator: splits at
every separator occurrence, keeping empty pieces. -/
def splitOnP (p : Char → Bool) (cs : List Char) : List (List Char) :=
  match cs with
  | [] => [[]]
  | c :: rest =>
    let r := splitOnP p rest
    if p c then [] :: r
    else
      match r with
      | [] => [[c]]
      | t :: ts => (c :: t) :: ts

def splitOnChar (sep : Char) (cs : List Char) : List (List Char) :=
  splitOnP (fun c => c = sep) cs

/-- JS parseInt(s, 10): skip leading whitespace, optional sign, then the
value of the leading run of decimal digits; NaN (none) if no digit. -/
def jsParseInt (cs0 : List Char) : Option ℤ :=
  let cs := cs0.dropWhile (fun c => isJsWs c)
  let sign : ℤ :=
    match cs with
    | '-' :: _ => -1
    | _ => 1
  let cs2 : List Char :=
    match cs with
    | '-' :: r => r
    | '+' :: r => r
    | r => r
  let ds : List Char := cs2.takeWhile (fun c => c.isDigit)
  if ds = [] then none
  else some (sign * (ds.foldl (fun a c => a * 10 + ((c.toNat - 48 : ℕ) : ℤ)) 0))

/-- `parsePaneLine` from TmuxDiscovery.ts: trim, split on single spaces
(empty pieces preserved, exactly as JS split(' ')), first token as PID via
parseInt, last token as COMMAND, space-join of the middle as CWD, rejected
when the CWD string is empty. -/
def parsePaneLine (line : String) : Option PaneInfo :=
  let parts := splitOnChar ' ' (jsTrim line.toList)
  if parts.length < 3 then none
  else
    match jsParseInt (parts.headD []) with
    | none => none
    | some pid =>
      let command := String.mk (parts.getLastD [])
      let cwd := String.mk (List.intercalate [' '] ((parts.drop 1).dropLast))
      if cwd = "" then none
      else some { pid := pid, cwd := cwd, command := command }

/-- One candidate line: first parse, then the command filter
(`command === 'claude' || command === 'codex'`). -/
def agentPane (l : String) : Option PaneInfo :=
  match parsePaneLine l with
  | none => none
  | some pr =>
    if pr.command = "claude" ∨ pr.command = "codex" then some pr else none

/-- The first matching pane of a group wins; later lines are not
inspected (the source `break`). -/
def firstAgentPane (lines : List String) : Option PaneInfo :=
  lines.findSome? agentPane

/-- `stdout.trim().split('\n')` as a list of strings. -/
def stdoutLines (stdout : String) : List String :=
  (splitOnChar '\n' (jsTrim stdout.toList)).map String.mk

/-- `stdout.trim().split('\n').filter((name) => name.length > 0)`. -/
def sessionNames (stdout : String) : List String :=
  (stdoutLines stdout).filter (fun nm => nm.length > 0)

/-- `discoverClaudeSessions`, with the two external tmux queries passed as
inputs: `none` models a failing query. -/
def discoverClaudeSessions (listSessionsOut : Option String)
    (listPanesOut : String → Option String) (now : ℚ) :
    List DiscoveredSession :=
  match listSessionsOut with
  | none => []
  | some out =>
    (sessionNames out).foldl (fun sessions name =>
      match listPanesOut name with
      | none => sessions
      | some out2 =>
        match firstAgentPane (stdoutLines out2) with
        | none => sessions
        | some pr =>
          sessions ++ [{ tmuxSession := name, command := pr.command
                       , cwd := pr.cwd, pid := pr.pid
                       , discoveredAt := now }]) []

/-- The contribution of a single group to the discovery output. -/
def pickGroup (listPanesOut : String → Option String) (now : ℚ)
    (name : String) : Option DiscoveredSession :=
  match listPanesOut name with
  | none => none
  | some out2 =>
    (firstAgentPane (stdoutLines out2)).map (fun pr =>
      { tmuxSession := name, command := pr.command, cwd := pr.cwd
      , pid := pr.pid, discoveredAt := now })

/-- Accumulating an optional result, as the discovery loop does. -/
def optStep {α β : Type} (f : α → Option β) (acc : List β) (a : α) :
    List β :=
  match f a with
  | none => acc
  | some b => acc ++ [b]

theorem foldl_opt_append {α β : Type} (f : α → Option β) (l : List α) :
    ∀ acc, l.foldl (optStep f) acc = acc ++ l.filterMap f := by
  induction l with
  | nil => intro acc; simp
  | cons a rest ih =>
    intro acc
    rw [List.foldl_cons, List.filterMap_cons]
    cases hfa : f a with
    | none => simp only [optStep, hfa]; rw [ih]
    | some b => simp only [optStep, hfa]; rw [ih]; simp

theorem findSome?_of_prefix {α β : Type} (f : α → Option β) :
    ∀ (pre : List α) (l : α) (post : List α) (b : β),
      (∀ x ∈ pre, f x = none) → f l = some b →
      (pre ++ l :: post).findSome? f = some b := by
  intro pre
  induction pre with
  | nil =>
    intro l post b _ hfl
    simp [List.findSome?, hfl]
  | cons a rest ih =>
    intro l post b hpre hfl
    have ha := hpre a (List.mem_cons_self _ _)
    simp only [List.cons_append, List.findSome?, ha]
    exact ih l post b (fun x hx => hpre x (List.mem_cons_of_mem _ hx)) hfl

/-! ## Claim C5: the pane-line parser -/

/-- Whitespace-separated tokens, as the claim words the line format:
maximal runs separated by whitespace, empty pieces dropped. -/
def wsTokens (line : String) : List (List Char) :=
  (splitOnP (fun c => isJsWs c) line.toList).filter (fun t => t ≠ [])

/-- Claim C5 counterexample: on the line "12   x" (three spaces between)
the claim demands rejection twice over — it has only two
whitespace-separated tokens, and the joined CWD " " is empty after
trimming — yet the parser accepts it with pid 12, cwd " ", command "x". -/
theorem parsePaneLine_cex :
    parsePaneLine "12   x" = some { pid := 12, cwd := " ", command := "x" } ∧
    (wsTokens "12   x").length = 2 ∧
    String.mk (jsTrim " ".toList) = "" :=
  ⟨by decide, by decide, by decide⟩

/-- The tokens the source actually uses: split the trimmed line on single
spaces, keeping empty tokens created by consecutive spaces. -/
def specTokens (line : String) : List (List Char) :=
  splitOnChar ' ' (jsTrim line.toList)

/-- Modelled from the amended claim wording: reject iff fewer than 3
single-space tokens, or the first token has no leading integer under JS
parseInt semantics, or the space-join of the middle tokens is the empty
string (no trimming). -/
def specReject (line : String) : Prop :=
  (specTokens line).length < 3 ∨
  jsParseInt ((specTokens line).headD []) = none ∨
  String.mk (List.intercalate [' '] (((specTokens line).drop 1).dropLast)) = ""

/-- Claim C5 (amended): with tokens obtained by splitting the trimmed line
on single spaces (empty tokens kept), the parser rejects a line iff it has
fewer than 3 tokens, or the first token does not parse under JS parseInt,
or the space-join of the middle tokens is the empty string; on acceptance
PID is the parseInt value of the first token, COMMAND the last token, and
CWD the space-join of the middle tokens. -/
theorem parsePaneLine_spec (line : String) :
    (parsePaneLine line = none ↔ specReject line) ∧
    (∀ pr, parsePaneLine line = some pr →
      jsParseInt ((specTokens line).headD []) = some pr.pid ∧
      pr.command = String.mk ((specTokens line).getLastD []) ∧
      pr.cwd = String.mk
        (List.intercalate [' '] (((specTokens line).drop 1).dropLast))) := by
  constructor
  · simp only [parsePaneLine, specReject, specTokens]
    by_cases h1 : (splitOnChar ' ' (jsTrim line.toList)).length < 3
    · rw [if_pos h1]
      exact ⟨fun _ => Or.inl h1, fun _ => rfl⟩
    · rw [if_neg h1]
      cases h2 : jsParseInt ((splitOnChar ' ' (jsTrim line.toList)).headD [])
        with
      | none =>
        simp only [h2]
        simp
      | some pid =>
        simp only [h2]
        by_cases h3 : String.mk (List.intercalate [' ']
            (((splitOnChar ' ' (jsTrim line.toList)).drop 1).dropLast)) = ""
        · rw [if_pos h3]
          exact ⟨fun _ => Or.inr (Or.inr h3), fun _ => rfl⟩
        · rw [if_neg h3]
          refine ⟨fun h => Option.noConfusion h, fun hrej => ?_⟩
          rcases hrej with hr | hr | hr
          · exact absurd hr h1
          · exact Option.noConfusion hr
          · exact absurd hr h3
  · intro pr hpr
    simp only [parsePaneLine] at hpr
    by_cases h1 : (splitOnChar ' ' (jsTrim line.toList)).length < 3
    · rw [if_pos h1] at hpr
      cases hpr
    · rw [if_neg h1] at hpr
      cases h2 : jsParseInt ((splitOnChar ' ' (jsTrim line.toList)).headD [])
        with
      | none =>
        simp only [h2] at hpr
        cases hpr
      | some pid =>
        simp only [h2] at hpr
        by_cases h3 : String.mk (List.intercalate [' ']
            (((splitOnChar ' ' (jsTrim line.toList)).drop 1).dropLast)) = ""
        · rw [if_pos h3] at hpr
          cases hpr
        · rw [if_neg h3] at hpr
          injection hpr with hpr
          subst hpr
          exact ⟨h2, rfl, rfl⟩

theorem parsePaneLine_spec_wit :
    jsParseInt ((specTokens "12 /home claude").headD [])
      = some ({ pid := 12, cwd := "/home", command := "claude" } : PaneInfo).pid ∧
    ({ pid := 12, cwd := "/home", command := "claude" } : PaneInfo).command
      = String.mk ((specTokens "12 /home claude").getLastD []) ∧
    ({ pid := 12, cwd := "/home", command := "claude" } : PaneInfo).cwd
      = String.mk (List.intercalate [' ']
          (((specTokens "12 /home claude").drop 1).dropLast)) :=
  (parsePaneLine_spec "12 /home claude").2
    { pid := 12, cwd := "/home", command := "claude" } (by decide)

/-! ## Claim C6: discovery failure semantics and matching policy -/

/-- Claim C6: if the group-listing query fails or yields nothing
parseable the pass returns [] without error; the output is the in-order
filterMap of the per-group results, so a failing per-group query skips
only that group and each group contributes at most one session; within a
group the first line whose command is exactly claude or codex
(case-sensitive) wins and later lines are not inspected. -/
theorem discover_props :
    (∀ (lp : String → Option String) (now : ℚ),
      discoverClaudeSessions none lp now = []) ∧
    (∀ (out : String) (lp : String → Option String) (now : ℚ),
      sessionNames out = [] → discoverClaudeSessions (some out) lp now = []) ∧
    (∀ (out : String) (lp : String → Option String) (now : ℚ),
      discoverClaudeSessions (some out) lp now
        = (sessionNames out).filterMap (pickGroup lp now)) ∧
    (∀ (lp : String → Option String) (now : ℚ) (name : String),
      lp name = none → pickGroup lp now name = none) ∧
    (∀ (lines pre : List String) (l : String) (post : List String)
        (pr : PaneInfo), lines = pre ++ l :: post →
      (∀ x ∈ pre, agentPane x = none) → agentPane l = some pr →
      firstAgentPane lines = some pr) ∧
    (∀ (l : String) (pr : PaneInfo), agentPane l = some pr →
      parsePaneLine l = some pr ∧
      (pr.command = "claude" ∨ pr.command = "codex")) := by
  refine ⟨?_, ?_, ?_, ?_, ?_, ?_⟩
  · intro lp now
    rfl
  · intro out lp now h
    simp only [discoverClaudeSessions, h]
    rfl
  · intro out lp now
    have hstep : (fun (sessions : List DiscoveredSession) (name : String) =>
        match lp name with
        | none => sessions
        | some out2 =>
          match firstAgentPane (stdoutLines out2) with
          | none => sessions
          | some pr =>
            sessions ++ [{ tmuxSession := name, command := pr.command
                         , cwd := pr.cwd, pid := pr.pid
                         , discoveredAt := now }])
        = optStep (pickGroup lp now) := by
      funext sessions name
      unfold pickGroup
      cases hlp : lp name with
      | none => simp [hlp, optStep]
      | some out2 =>
        cases hfp : firstAgentPane (stdoutLines out2) with
        | none => simp [hlp, hfp, optStep]
        | some pr => simp [hlp, hfp, optStep]
    calc discoverClaudeSessions (some out) lp now
        = (sessionNames out).foldl
            (fun (sessions : List DiscoveredSession) (name : String) =>
              match lp name with
              | none => sessions
              | some out2 =>
                match firstAgentPane (stdoutLines out2) with
                | none => sessions
                | some pr =>
                  sessions ++ [{ tmuxSession := name, command := pr.command
                               , cwd := pr.cwd, pid := pr.pid
                               , discoveredAt := now }]) [] := rfl
      _ = (sessionNames out).foldl (optStep (pickGroup lp now)) [] := by
            rw [hstep]
      _ = [] ++ (sessionNames out).filterMap (pickGroup lp now) :=
            foldl_opt_append (pickGroup lp now) (sessionNames out) []
      _ = (sessionNames out).filterMap (pickGroup lp now) := by simp
  · intro lp now name h
    simp [pickGroup, h]
  · intro lines pre l post pr hsplit hpre hl
    subst hsplit
    exact findSome?_of_prefix agentPane pre l post pr hpre hl
  · intro l pr h
    unfold agentPane at h
    cases hp : parsePaneLine l with
    | none =>
      rw [hp] at h
      cases h
    | some pr2 =>
      rw [hp] at h
      dsimp only at h
      by_cases hc : pr2.command = "claude" ∨ pr2.command = "codex"
      · rw [if_pos hc] at h
        injection h with h
        subst h
        exact ⟨rfl, hc⟩
      · rw [if_neg hc] at h
        cases h

theorem discover_props_wit :
    firstAgentPane ["200 /home/b zsh", "300 /home/c codex"]
      = some { pid := 300, cwd := "/home/c", command := "codex" } :=
  discover_props.2.2.2.2.1 ["200 /home/b zsh", "300 /home/c codex"]
    ["200 /home/b zsh"] "300 /home/c codex" []
    { pid := 300, cwd := "/home/c", command := "codex" } rfl
    (by decide) (by decide)
